import Mathlib

/-!
Verification development for the OS-Simulator repository (Sim03 core,
with the Program/Operation data model shared with Sim02).

The C++ sources embedded here:
  * Sim02/source/Program.h, Program.cpp  (Operation / Program data model)
  * Sim03/src/simulator.cpp              (scheduler, executor, meta-data loader)

Sim03's own Program header/implementation and simulator.h are not part of
the available sources; the handful of trivial members they provide
(`next`, `done`, `remaining_operations`, the derived `duration`, and the
priority-queue comparator) are modelled from the specification and are
marked as such in their doc comments.

All recursive functions are written with an explicit structural fuel
argument that is always sufficient by construction (the wrappers pass a
fuel computed from the input); this keeps every definition executable by
kernel reduction.  Exhausted fuel surfaces as the distinguished error
`Err.outOfFuel`, which never occurs for the fuel the wrappers pass.
-/

namespace OSSim

/-- Embeds `enum State { START, READY, RUNNING, EXIT }` from Sim02 Program.h. -/
inductive State
  | START
  | READY
  | RUNNING
  | EXIT
deriving DecidableEq, Repr, Inhabited

/-- Embeds `struct Operation` (Sim02 Program.h, extended in Sim03 with the
`cycleTime` resolved at load time by `Simulator::set_operation_cycle_time`).
`type` is the single-letter code S/A/P/I/O, `description` the device or
phase name, `cycles` the parsed cycle count, `cycleTime` the per-cycle
duration resolved from configuration. -/
structure Operation where
  type : Char
  description : String
  cycles : Int
  cycleTime : Int
deriving DecidableEq, Repr

instance : Inhabited Operation := ⟨⟨'?', "", 0, 0⟩⟩

/-- Modelled from the spec: Sim03's Operation carries a `duration` used by
the sleeps and by `Program::add_operation`; the spec (section 3) derives it
as `cycles * cycleTime`.  The field's computation is not in the available
sources, so it is modelled as this derived function. -/
def Operation.duration (op : Operation) : Int := op.cycles * op.cycleTime

/-- Embeds `class Program` (Sim02 Program.h): an operations queue plus
`state`, `running_time` and `id` with their in-class initialisers
(`state = START`, `running_time = 0`, `id = 0`).  The extra `tag` field is
a ghost admission index used only to state trace properties; no embedded
source function reads it, and it rides along unchanged exactly as the C++
object identity would. -/
structure Program where
  operations : List Operation
  state : State
  running_time : Int
  id : Nat
  tag : Nat
deriving DecidableEq, Repr

instance : Inhabited Program := ⟨⟨[], State.START, 0, 0, 0⟩⟩

/-- Embeds `Program::add_operation` (Sim02 Program.cpp): pushes the
operation on the queue and accumulates `running_time += operation.duration`. -/
def Program.add_operation (p : Program) (op : Operation) : Program :=
  { p with operations := p.operations ++ [op],
           running_time := p.running_time + op.duration }

/-- Modelled from the spec: Sim03's `Program::next()` (not in the available
sources) pops the front of the FIFO operations queue and returns it; the
spec fixes FIFO consumption order and the call sites
(`program.next(); // just to pop the last item off`) fix the pop-and-return
behaviour.  `none` models the undefined behaviour of `front()` on an empty
`std::queue`. -/
def Program.next (p : Program) : Option (Operation × Program) :=
  match p.operations with
  | [] => none
  | op :: rest => some (op, { p with operations := rest })

/-- Modelled from the spec: Sim03's `Program::done()` — the program is
finished when its operations queue is empty (spec section 4.2). -/
def Program.done (p : Program) : Bool := p.operations.isEmpty

/-- Modelled from the spec: Sim03's `Program::remaining_operations()` — the
number of operations still queued. -/
def Program.remaining_operations (p : Program) : Nat := p.operations.length

/-- Modelled from the spec: the comparison the SRTF priority queue uses.
Sim02's Program.h declares `bool operator>(const Program&) const` and the
spec orders the queue ascending by `runningTime`, so `a > b` compares
`running_time`.  (Sim02's Program.cpp defines the mirror `operator<` as
`running_time < other.running_time`.) -/
def Program.gt (a b : Program) : Bool := decide (b.running_time < a.running_time)

/-- The five configured cycle times consumed by
`Simulator::set_operation_cycle_time` (loaded by `load_config`, whose
parsing is outside the claims considered here). -/
structure Config where
  processorCycleTime : Int
  monitorDisplayTime : Int
  hardDriveCycleTime : Int
  printerCycleTime : Int
  keyboardCycleTime : Int
deriving DecidableEq, Repr

/-- Error taxonomy of the embedded simulator.  Constructors ending in `UB`
model C++ undefined behaviour (reads of empty containers / strings), and
`outOfFuel` is the embedding artefact for exhausted structural fuel (never
reached for the fuel the wrappers pass). -/
inductive Err
  | metaStartFlag
  | metaEndFlag
  | metaLastLine
  | unrecognizedOperation
  | stoiInvalid
  | substrRange
  | emptyTokenUB
  | emptyQueueUB
  | outOfFuel
deriving DecidableEq, Repr

/-- Embeds `Simulator::set_operation_cycle_time` (simulator.cpp:426-462).
Note the faithful fall-through: an `I`/`O` operation whose description is
none of the four devices leaves `cycleTime` untouched and raises no error;
only an unrecognized `type` throws. -/
def set_operation_cycle_time (cfg : Config) (operation : Operation) :
    Except Err Operation :=
  if operation.type = 'P' then
    .ok { operation with cycleTime := cfg.processorCycleTime }
  else if operation.type = 'I' ∨ operation.type = 'O' then
    if operation.description = "hard drive" then
      .ok { operation with cycleTime := cfg.hardDriveCycleTime }
    else if operation.description = "keyboard" then
      .ok { operation with cycleTime := cfg.keyboardCycleTime }
    else if operation.description = "monitor" then
      .ok { operation with cycleTime := cfg.monitorDisplayTime }
    else if operation.description = "printer" then
      .ok { operation with cycleTime := cfg.printerCycleTime }
    else
      .ok operation
  else if operation.type = 'A' ∨ operation.type = 'S' then
    .ok { operation with cycleTime := 0 }
  else
    .error .unrecognizedOperation

/-! ### Stream primitives

The meta-data loader reads its `std::ifstream` through `std::getline` with
an explicit delimiter, `>> std::ws`, and `peek()`.  The stream is embedded
as the remaining character list. -/

/-- The characters `std::ws` (classic locale `isspace`) skips. -/
def isWsChar (c : Char) : Bool :=
  c = ' ' ∨ c = '\t' ∨ c = '\n' ∨ c = '\x0b' ∨ c = '\x0c' ∨ c = '\r'

/-- Character test used by `getlineD`: not the delimiter. -/
def notDelim (delim : Char) (c : Char) : Bool := ¬ (c = delim)

/-- Embeds `std::getline(stream, out, delim)`: extracts up to the first
delimiter (consumed, not stored); at end of stream it extracts the rest. -/
def getlineD (delim : Char) (s : List Char) : String × List Char :=
  let pre := s.takeWhile (notDelim delim)
  (String.mk pre, s.drop (pre.length + 1))

/-- Embeds `std::stoi` as used on the cycle field: skip leading
whitespace, optional sign, then a non-empty digit prefix; anything else
throws (`std::invalid_argument`, uncaught in the C++, hence fatal). -/
def stoi (s : String) : Except Err Int :=
  let cs := s.toList.dropWhile isWsChar
  let (neg, ds) :=
    match cs with
    | '-' :: rest => (true, rest)
    | '+' :: rest => (false, rest)
    | rest => (false, rest)
  let digits := ds.takeWhile Char.isDigit
  if digits.isEmpty then .error .stoiInvalid
  else
    let n : Nat := digits.foldl (fun a c => a * 10 + (c.toNat - 48)) 0
    .ok (if neg then -(n : Int) else (n : Int))

/-- Embeds the token-parsing block of `Simulator::load_meta_data`
(simulator.cpp:381-390): `type = input.front()`,
`paranthesisLocation = input.find(')')` (an `int`, so npos becomes -1),
`description = input.substr(2, paranthesisLocation-2)` and
`cycles = stoi(input.begin()+paranthesisLocation+1 .. end)`.
`cur` is the function-scoped `Operation operation;` local that is reused
across iterations, so unassigned fields (notably `cycleTime`) keep their
previous value.  `front()` on an empty token and `substr(2, ...)` on a
token shorter than 2 are C++ failures (UB / uncaught `std::out_of_range`). -/
def parse_token (input : String) (cur : Operation) : Except Err Operation :=
  match input.toList with
  | [] => .error .emptyTokenUB
  | c :: rest =>
    let cs := c :: rest
    if cs.length < 2 then .error .substrRange
    else
      let parenLoc : Int :=
        match cs.findIdx? (fun ch => ch = ')') with
        | some i => (i : Int)
        | none => -1
      let descr : List Char :=
        if 2 ≤ parenLoc then (cs.drop 2).take (parenLoc.toNat - 2)
        else cs.drop 2
      match stoi (String.mk (cs.drop (parenLoc + 1).toNat)) with
      | .error e => .error e
      | .ok cyc =>
        .ok { cur with type := c, description := String.mk descr, cycles := cyc }

/-- Embeds the inner do-while of `Simulator::load_meta_data`
(simulator.cpp:379-400): read a `;`-token, parse it into the reused
`operation` local, resolve its cycle time, `add_operation` it to the
program being built, eat whitespace, and stop once the token just
processed was `A(end)0`.  Fuel is structural; the wrapper passes more fuel
than the stream has characters. -/
def load_program (cfg : Config) :
    Nat → Operation → Program → List Char →
    Except Err (Program × Operation × List Char)
  | 0, _, _, _ => .error .outOfFuel
  | fuel + 1, cur, acc, s =>
    let input := (getlineD ';' s).1
    let s1 := (getlineD ';' s).2
    match parse_token input cur with
    | .error e => .error e
    | .ok op0 =>
      match set_operation_cycle_time cfg op0 with
      | .error e => .error e
      | .ok op =>
        let acc1 := acc.add_operation op
        let s2 := s1.dropWhile isWsChar
        if input = "A(end)0" then .ok (acc1, op, s2)
        else load_program cfg fuel op acc1 s2

/-- Embeds the outer `while (fin.peek() != 'S')` of
`Simulator::load_meta_data` (simulator.cpp:374-404): while the next
character is not `S`, build one program and append it to `programs_`.
Each completed program receives the ghost admission `tag` equal to its
position in `programs_`.  At end of stream `peek()` returns EOF, which is
not `'S'`, so the C++ enters the loop and fails on the empty read — the
embedding reproduces that via `parse_token` on the empty token. -/
def load_programs (cfg : Config) :
    Nat → Operation → List Program → List Char →
    Except Err (List Program × Operation × List Char)
  | 0, _, _, _ => .error .outOfFuel
  | fuel + 1, cur, ps, s =>
    if s.head? = some 'S' then .ok (ps, cur, s)
    else
      let newProgram : Program := ⟨[], State.START, 0, 0, ps.length⟩
      match load_program cfg (s.length + 1) cur newProgram s with
      | .error e => .error e
      | .ok (p, cur1, s1) => load_programs cfg fuel cur1 (ps ++ [p]) s1

/-- Embeds `Simulator::load_meta_data` (simulator.cpp:347-424): check the
`Start Program Meta-Data Code:\nS(start)0` preamble (one `getline` up to
`;`), load programs while the peeked character is not `S`, then check the
`S(end)0` terminator (a `getline` up to `.`) and the final
`End Program Meta-Data Code` line (another `getline` up to `.`).
`initOp` is the indeterminate initial value of the function-scoped
`Operation operation;` local. -/
def load_meta_data (cfg : Config) (stream : List Char) (initOp : Operation) :
    Except Err (List Program) :=
  let input := (getlineD ';' stream).1
  let s1 := (getlineD ';' stream).2.dropWhile isWsChar
  if input = "Start Program Meta-Data Code:\nS(start)0" then
    match load_programs cfg (s1.length + 1) initOp [] s1 with
    | .error e => .error e
    | .ok (ps, _, s2) =>
      let term := (getlineD '.' s2).1
      let s4 := (getlineD '.' s2).2.dropWhile isWsChar
      if term = "S(end)0" then
        if (getlineD '.' s4).1 = "End Program Meta-Data Code" then .ok ps
        else .error .metaLastLine
      else .error .metaEndFlag
  else .error .metaStartFlag

/-! ### Events

Each `Simulator::print` call site becomes one event constructor carrying
the data interpolated into the printed line.  The extra `setState`
constructor is ghost instrumentation recording each assignment to a
program's `state` member (tagged by the ghost admission tag); the C++
prints no line for those assignments. -/

inductive Event
  | simStart
  | simEnd
  | preparing
  | selecting
  | startingProcess (pid : Nat)
  | removingProcess (pid : Nat)
  | procStart (pid : Nat)
  | procEnd (pid : Nat)
  | ioStart (pid : Nat) (device : String) (access : String)
  | ioEnd (pid : Nat) (device : String) (access : String)
  | setState (tag : Nat) (s : State)
deriving DecidableEq, Repr

/-- Embeds `Simulator::process_IO` (simulator.cpp:176-221); the name
carries an `_events` suffix in the embedding.  The surrounding thread is
created and immediately joined (simulator.cpp:152-160), so the events are
sequential.  An `I`/`O` operation with a description other than the four
devices prints nothing (faithful fall-through). -/
def process_IO_events (operation : Operation) (programID : Nat) : List Event :=
  if operation.description = "hard drive" then
    let accessType := if operation.type = 'I' then "input" else "output"
    [.ioStart programID "hard drive" accessType,
     .ioEnd programID "hard drive" accessType]
  else if operation.description = "keyboard" then
    [.ioStart programID "keyboard" "input", .ioEnd programID "keyboard" "input"]
  else if operation.description = "monitor" then
    [.ioStart programID "monitor" "output", .ioEnd programID "monitor" "output"]
  else if operation.description = "printer" then
    [.ioStart programID "printer" "output", .ioEnd programID "printer" "output"]
  else []

/-- The events produced by executing one (already popped) operation in
`Simulator::process_operation` (simulator.cpp:137-161): a `P` operation
prints start/end processing around the sleep; an `I`/`O` operation runs
`process_IO` on the joined thread; anything else prints nothing. -/
def execEvents (operation : Operation) (programID : Nat) : List Event :=
  if operation.type = 'P' then
    [.procStart programID, .procEnd programID]
  else if operation.type = 'I' ∨ operation.type = 'O' then
    process_IO_events operation programID
  else []

/-- Embeds `Simulator::process_operation` (simulator.cpp:124-170):
pop the front operation; if it is `A(start)` announce the process and pop
the next operation; execute it (`execEvents`); finally, if exactly one
operation remains it is popped and the process removal is announced.
Errors model `front()`/`pop()` on an empty queue. -/
def process_operation (program : Program) : Except Err (Program × List Event) :=
  let programID := program.id
  match program.next with
  | none => .error .emptyQueueUB
  | some (operation, program1) =>
    let step1 : Except Err (Operation × Program × List Event) :=
      if operation.type = 'A' ∧ operation.description = "start" then
        match program1.next with
        | none => .error .emptyQueueUB
        | some (op2, program2) =>
          .ok (op2, program2, [Event.startingProcess programID])
      else .ok (operation, program1, [])
    match step1 with
    | .error e => .error e
    | .ok (operation, program2, evs1) =>
      let evs2 : List Event := execEvents operation programID
      let program3 :=
        if program2.remaining_operations = 1 then
          { program2 with operations := program2.operations.drop 1 }
        else program2
      let evs3 : List Event :=
        if program2.remaining_operations = 1 then [Event.removingProcess programID]
        else []
      .ok (program3, evs1 ++ evs2 ++ evs3)

/-! ### The SRTF priority queue

`SRTF_queue_` is a `std::priority_queue<Program, std::vector<Program>,
std::greater<Program>>` (the header declaring it is not among the
available sources; the spec fixes ascending-by-`runningTime` order, which
with the declared `operator>` means `std::greater` as comparator).
`std::priority_queue` delegates to `std::push_heap` / `std::pop_heap`;
the definitions below are a direct translation of GNU libstdc++'s
`bits/stl_heap.h` (`__push_heap` and Floyd's `__adjust_heap`), the
library the repository builds against.  The comparator argument
`__comp(a, b)` is `Program.gt a b`. -/

/-- Translation of libstdc++ `std::__push_heap(first, holeIndex, topIndex,
value, comp)`: while the hole is below `top` and the parent compares
greater than `value`, move the parent down; finally store `value`. -/
def siftUpF : Nat → List Program → Nat → Nat → Program → List Program
  | 0, arr, _, hole, value => arr.set hole value
  | fuel + 1, arr, top, hole, value =>
    if top < hole then
      let parent := (hole - 1) / 2
      if Program.gt (arr.getD parent default) value then
        siftUpF fuel (arr.set hole (arr.getD parent default)) top parent value
      else arr.set hole value
    else arr.set hole value

/-- Fuel wrapper for `siftUpF`; `hole + 1` steps always suffice because the
hole index strictly decreases. -/
def siftUp (arr : List Program) (top hole : Nat) (value : Program) : List Program :=
  siftUpF (hole + 1) arr top hole value

/-- The child `__adjust_heap`'s loop body selects: `secondChild` is set to
`2 * (secondChild + 1)` and decremented when the comparator says the right
child is greater than the left one (so the smaller child is chosen). -/
def adjChild (arr : List Program) (second : Nat) : Nat :=
  if Program.gt (arr.getD (2 * (second + 1)) default)
      (arr.getD (2 * (second + 1) - 1) default) then
    2 * (second + 1) - 1
  else 2 * (second + 1)

/-- Translation of the descending loop of libstdc++ `std::__adjust_heap`:
while the hole has two children inside `len`, move the smaller child (per
the comparator, see `adjChild`) into the hole and descend.  Returns the
array, the final hole index and the final `secondChild` variable. -/
def adjustDownF : Nat → List Program → Nat → Nat → Nat → List Program × Nat × Nat
  | 0, arr, hole, second, _ => (arr, hole, second)
  | fuel + 1, arr, hole, second, len =>
    if second < (len - 1) / 2 then
      adjustDownF fuel (arr.set hole (arr.getD (adjChild arr second) default))
        (adjChild arr second) (adjChild arr second) len
    else (arr, hole, second)

/-- Translation of libstdc++ `std::__adjust_heap(first, holeIndex, len,
value, comp)` (Floyd's variant): descend moving the smaller child up; if
`len` is even and the hole reached the parent of the last position, move
that only child up; then sift `value` up from the final hole.
`holeIdx` is also the `topIndex` passed to the final `__push_heap`. -/
def adjustHeap (arr : List Program) (holeIdx len : Nat) (value : Program) :
    List Program :=
  let r := adjustDownF len arr holeIdx holeIdx len
  let a1 := r.1
  let h1 := r.2.1
  let s1 := r.2.2
  if len % 2 = 0 ∧ 2 ≤ len ∧ s1 = (len - 2) / 2 then
    let sc := 2 * (s1 + 1)
    siftUp (a1.set h1 (a1.getD (sc - 1) default)) holeIdx (sc - 1) value
  else siftUp a1 holeIdx h1 value

/-- Embeds `SRTF_queue_.push(p)`: `push_back` then `std::push_heap` with
the hole at the appended position. -/
def heapPush (arr : List Program) (value : Program) : List Program :=
  siftUp (arr ++ [value]) 0 arr.length value

/-- Embeds `SRTF_queue_.top()` followed by `SRTF_queue_.pop()`
(`std::pop_heap` then `pop_back`): save the root, move the last element's
value into the adjust as `value`, re-heapify the first `len = size - 1`
positions, and drop the last slot.  `none` models `top()` on an empty
queue (never executed by the loop, which checks `empty()` first). -/
def heapPop (arr : List Program) : Option (Program × List Program) :=
  match arr with
  | [] => none
  | _ :: _ =>
    let n := arr.length
    let top := arr.getD 0 default
    let value := arr.getD (n - 1) default
    let a1 := arr.set (n - 1) top
    let a2 := adjustHeap a1 0 (n - 1) value
    some (top, a2.take (n - 1))

/-! ### The scheduler (`Simulator::run`, simulator.cpp:41-119) -/

/-- The outcome of one scheduling branch: the finished program copies (in
completion order), the programs in first-dispatch order, and the event
trace of the branch. -/
structure SchedOut where
  exited : List Program
  dispatched : List Program
  events : List Event
deriving DecidableEq, Repr

/-- Embeds the body of the FIFO `while (!program.done())` drain
(simulator.cpp:65-68): repeatedly `process_operation` until `done()`. -/
def fifoDrain : Nat → Program → Except Err (Program × List Event)
  | 0, p => if p.done then .ok (p, []) else .error .outOfFuel
  | fuel + 1, p =>
    if p.done then .ok (p, [])
    else
      match process_operation p with
      | .error e => .error e
      | .ok (p1, evs) =>
        match fifoDrain fuel p1 with
        | .error e => .error e
        | .ok (p2, evs') => .ok (p2, evs ++ evs')

/-- Embeds the FIFO dispatch loop (simulator.cpp:56-71): for each stored
program (a by-value copy), announce selection, assign the next id, set it
RUNNING, drain it to completion, and set it EXIT. -/
def fifoPrograms : Nat → List Program → Except Err SchedOut
  | _, [] => .ok ⟨[], [], []⟩
  | counter, program :: rest =>
    let programCounter := counter + 1
    let p1 := { program with id := programCounter, state := State.RUNNING }
    match fifoDrain (p1.operations.length + 1) p1 with
    | .error e => .error e
    | .ok (p2, evs) =>
      let pExit := { p2 with state := State.EXIT }
      match fifoPrograms programCounter rest with
      | .error e => .error e
      | .ok out =>
        .ok ⟨pExit :: out.exited, program :: out.dispatched,
             (Event.selecting :: Event.setState program.tag State.RUNNING ::
               (evs ++ [Event.setState program.tag State.EXIT])) ++ out.events⟩

/-- Embeds the FIFO branch of `Simulator::run` (simulator.cpp:48-72):
announce preparation, set every copy READY (each `program` in the range-for
is a by-value copy, so only the ghost state trace observes it), then run
the dispatch loop. -/
def fifoRun (ps : List Program) : Except Err SchedOut :=
  match fifoPrograms 0 ps with
  | .error e => .error e
  | .ok out =>
    .ok ⟨out.exited, out.dispatched,
         Event.preparing ::
           ((ps.map fun p => Event.setState p.tag State.READY) ++ out.events)⟩

/-- The data produced by one iteration of the SRTF scheduling loop. -/
structure IterOut where
  popped : Program
  rest : List Program
  counter2 : Nat
  firstDispatch : List Program
  q : Program
  finished : Bool
  qFinal : Program
  nextHeap : List Program
  events : List Event
deriving DecidableEq, Repr

/-- Embeds one iteration of the SRTF loop body (simulator.cpp:86-114):
announce selection, pop the top program, assign a fresh id only when the
popped id is still 0, set it RUNNING, run `process_operation` once, then
either set it EXIT and discard it (when `done()`) or set it READY and push
it back.  `.ok none` is the loop guard observing an empty queue. -/
def srtfIteration (heap : List Program) (counter : Nat) :
    Except Err (Option IterOut) :=
  match heapPop heap with
  | none => .ok none
  | some (program, rest) =>
    let counter2 := if program.id = 0 then counter + 1 else counter
    let p1 := if program.id = 0 then { program with id := counter + 1 } else program
    let firstDispatch := if program.id = 0 then [program] else []
    let p2 := { p1 with state := State.RUNNING }
    match process_operation p2 with
    | .error e => .error e
    | .ok (q, evs) =>
      let finished := q.done
      let qFinal :=
        if finished then { q with state := State.EXIT }
        else { q with state := State.READY }
      let nextHeap := if finished then rest else heapPush rest qFinal
      .ok (some
        { popped := program, rest := rest, counter2 := counter2,
          firstDispatch := firstDispatch, q := q, finished := finished,
          qFinal := qFinal, nextHeap := nextHeap,
          events :=
            Event.selecting :: Event.setState program.tag State.RUNNING ::
              (evs ++
                [Event.setState program.tag
                  (if finished then State.EXIT else State.READY)]) })

/-- Embeds the SRTF `while (!SRTF_queue_.empty())` loop (simulator.cpp:
86-115) as iterated `srtfIteration`.  Fuel is structural; the wrapper
passes one more unit than the total number of queued operations, which
bounds the iteration count because every iteration consumes at least one
operation. -/
def srtfLoop : Nat → List Program → Nat → Except Err SchedOut
  | 0, heap, _ => if heap.isEmpty then .ok ⟨[], [], []⟩ else .error .outOfFuel
  | fuel + 1, heap, counter =>
    match srtfIteration heap counter with
    | .error e => .error e
    | .ok none => .ok ⟨[], [], []⟩
    | .ok (some it) =>
      match srtfLoop fuel it.nextHeap it.counter2 with
      | .error e => .error e
      | .ok out =>
        .ok ⟨(if it.finished then [it.qFinal] else []) ++ out.exited,
             it.firstDispatch ++ out.dispatched,
             it.events ++ out.events⟩

/-- Total number of queued operations, the fuel bound for `srtfLoop`. -/
def sumOps (ps : List Program) : Nat :=
  (ps.map fun p => p.operations.length).sum

/-- Embeds the SRTF branch of `Simulator::run` (simulator.cpp:76-116):
announce preparation, set each by-value copy READY and push it on the
(initially empty) priority queue, then run the scheduling loop. -/
def srtfRun (ps : List Program) : Except Err SchedOut :=
  let heap0 := ps.foldl (fun h p => heapPush h { p with state := State.READY }) []
  match srtfLoop (sumOps ps + 1) heap0 0 with
  | .error e => .error e
  | .ok out =>
    .ok ⟨out.exited, out.dispatched,
         Event.preparing ::
           ((ps.map fun p => Event.setState p.tag State.READY) ++ out.events)⟩

/-- The simulator members `Simulator::run` touches.  `programs_` is the
stored program list built by `load_meta_data`; the scheduling code string
comes from `load_config`.  (`SRTF_queue_` starts empty and is drained by
the loop; it is threaded locally through `srtfLoop`.) -/
structure Simulator where
  programs_ : List Program
  schedulingCode_ : String
deriving DecidableEq, Repr

/-- The observable outcome of `Simulator::run`: the member state after the
run, plus the branch outcome. -/
structure RunResult where
  simulator : Simulator
  exited : List Program
  dispatched : List Program
  events : List Event
deriving DecidableEq, Repr

/-- Embeds `Simulator::run` (simulator.cpp:41-119): announce the start,
run the FIFO branch when `schedulingCode_ == "FIFO"` and the SRTF branch
otherwise, and announce the end.  Both branches iterate `programs_` with
by-value range-for copies and push copies on the queue, so the member
`programs_` is read, never written — the embedding returns the simulator
with `programs_` untouched, which is the content of that observation. -/
def Simulator.run (sim : Simulator) : Except Err RunResult :=
  match
    (if sim.schedulingCode_ = "FIFO" then fifoRun sim.programs_
     else srtfRun sim.programs_) with
  | .error e => .error e
  | .ok out =>
    .ok ⟨sim, out.exited, out.dispatched,
         Event.simStart :: (out.events ++ [Event.simEnd])⟩

/-! ### Observation helpers used by the theorems -/

/-- The process id carried by a process-level log line, if any (OS-level
lines and the ghost state instrumentation carry none). -/
def eventPid : Event → Option Nat
  | .startingProcess n => some n
  | .removingProcess n => some n
  | .procStart n => some n
  | .procEnd n => some n
  | .ioStart n _ _ => some n
  | .ioEnd n _ _ => some n
  | _ => none

/-- The sequence of states assigned to the program with ghost tag `t`. -/
def stateTrace (t : Nat) (evs : List Event) : List State :=
  evs.filterMap fun e =>
    match e with
    | .setState t' s => if t' = t then some s else none
    | _ => none

/-- Number of timed operation executions evidenced in a trace: each `P`
execution contributes one `procStart`, each dispatched `I`/`O` device
operation one `ioStart`. -/
def timedCount (evs : List Event) : Nat :=
  (evs.filter fun e =>
    match e with
    | .procStart _ => true
    | .ioStart _ _ _ => true
    | _ => false).length

/-- Rank of a lifecycle state in the Start → Ready → Running → Exit
progression. -/
def stRank : State → Nat
  | .START => 0
  | .READY => 1
  | .RUNNING => 2
  | .EXIT => 3

/-- Key order on heap entries (the `runningTime` ranking). -/
def keyAt (arr : List Program) (i : Nat) : Int := (arr.getD i default).running_time

/-- Binary-heap shape on the first `len` entries: every non-root position
is dominated (ascending `running_time`) by its parent. -/
def IsHeapL (arr : List Program) (len : Nat) : Prop :=
  ∀ i, i < len → 0 < i → keyAt arr ((i - 1) / 2) ≤ keyAt arr i

/-- Binary-heap shape on the whole array. -/
def IsHeap (arr : List Program) : Prop := IsHeapL arr arr.length

instance (arr : List Program) (len : Nat) : Decidable (IsHeapL arr len) :=
  Nat.decidableBallLT len _

instance (arr : List Program) : Decidable (IsHeap arr) :=
  inferInstanceAs (Decidable (IsHeapL arr arr.length))

/-- Sift-up precondition: with `value` virtually placed at `hole`, the
heap shape holds at every position except possibly the edge into `hole`. -/
def HeapExceptL (arr : List Program) (len hole : Nat) (value : Program) : Prop :=
  ∀ i, i < len → 0 < i → i ≠ hole →
    keyAt (arr.set hole value) ((i - 1) / 2) ≤ keyAt (arr.set hole value) i

/-- Sift-up precondition: the hole's children (if any) are already
dominated by the hole's own parent, so moving a parent down into the hole
keeps the shape below the hole intact. -/
def GrandCondL (arr : List Program) (len hole : Nat) : Prop :=
  0 < hole → ∀ c, c < len → (c - 1) / 2 = hole →
    keyAt arr ((hole - 1) / 2) ≤ keyAt arr c

/-- Invariant of the descending phase of `adjustHeap`: heap shape on all
edges not touching the hole, plus the grandparent condition at the hole. -/
def DownInvL (arr : List Program) (len hole : Nat) : Prop :=
  (∀ c, c < len → 0 < c → c ≠ hole → (c - 1) / 2 ≠ hole →
    keyAt arr ((c - 1) / 2) ≤ keyAt arr c) ∧ GrandCondL arr len hole

/-- The state-assignment shape of a program that is popped `k + 1` times by
the SRTF loop: `k` unfinished dispatches (Running, back to Ready) followed
by the final dispatch (Running, Exit). -/
def srtfPattern : Nat → List State
  | 0 => [State.RUNNING, State.EXIT]
  | k + 1 => State.RUNNING :: State.READY :: srtfPattern k

/-- Sample bracketing operations and programs used to instantiate the
scheduling theorems on concrete inputs. -/
def sampleOpStart : Operation := ⟨'A', "start", 0, 0⟩

def sampleOpEnd : Operation := ⟨'A', "end", 0, 0⟩

def sampleP0 : Program := ⟨[sampleOpStart, sampleOpEnd], State.START, 5, 0, 0⟩

def sampleP1 : Program := ⟨[sampleOpStart, sampleOpEnd], State.START, 3, 0, 1⟩

/-- The FIFO run of the two sample programs, written out. -/
def fifoSampleOut : SchedOut :=
  ⟨[⟨[], State.EXIT, 5, 1, 0⟩, ⟨[], State.EXIT, 3, 2, 1⟩],
   [sampleP0, sampleP1],
   [.preparing, .setState 0 .READY, .setState 1 .READY,
    .selecting, .setState 0 .RUNNING, .startingProcess 1, .setState 0 .EXIT,
    .selecting, .setState 1 .RUNNING, .startingProcess 2, .setState 1 .EXIT]⟩

/-- The SRTF run of the two sample programs, written out: the smaller
`running_time` (tag 1, admitted second) is dispatched first. -/
def srtfSampleOut : SchedOut :=
  ⟨[⟨[], State.EXIT, 3, 1, 1⟩, ⟨[], State.EXIT, 5, 2, 0⟩],
   [⟨[sampleOpStart, sampleOpEnd], State.READY, 3, 0, 1⟩,
    ⟨[sampleOpStart, sampleOpEnd], State.READY, 5, 0, 0⟩],
   [.preparing, .setState 0 .READY, .setState 1 .READY,
    .selecting, .setState 1 .RUNNING, .startingProcess 1, .setState 1 .EXIT,
    .selecting, .setState 0 .RUNNING, .startingProcess 2, .setState 0 .EXIT]⟩

/-- One SRTF iteration on the singleton heap `[sampleP0]`, written out. -/
def srtfSampleIter : IterOut :=
  ⟨sampleP0, [], 1, [sampleP0], ⟨[], State.RUNNING, 5, 1, 0⟩, true,
   ⟨[], State.EXIT, 5, 1, 0⟩, [],
   [.selecting, .setState 0 .RUNNING, .startingProcess 1, .setState 0 .EXIT]⟩

/-! ## Theorems -/

/-- C1, counterexample.  The claim says a kind/description combination
outside the recognized table — in particular an `I`/`O` operation with an
unrecognized device description — is a fatal `UnrecognizedOperation` error
at load time.  The code disagrees: `set_operation_cycle_time` falls
through the `I`/`O` branch without an `else`, leaving `cycleTime` at its
previous (here stale, from the preceding `A` operation) value, and the
whole meta-data load of a program containing `I(tape)3` succeeds. -/
theorem C1_counterexample :
    set_operation_cycle_time ⟨10, 20, 30, 40, 50⟩ ⟨'I', "tape", 3, 99⟩ =
      .ok ⟨'I', "tape", 3, 99⟩ ∧
    load_meta_data ⟨10, 20, 30, 40, 50⟩
        ("Start Program Meta-Data Code:\nS(start)0;\nA(start)0; I(tape)3; A(end)0;\nS(end)0.\nEnd Program Meta-Data Code.".toList)
        ⟨'?', "", 0, 99⟩ =
      .ok [⟨[⟨'A', "start", 0, 0⟩, ⟨'I', "tape", 3, 0⟩, ⟨'A', "end", 0, 0⟩],
            State.START, 0, 0, 0⟩] := by
  constructor
  · rfl
  · rfl

/-- C1, amended.  Resolving the cycle time of an operation whose `type` is
none of P/I/O/A/S is a fatal `UnrecognizedOperation` error; an `I`/`O`
operation with an unrecognized device description is, however, accepted
silently with its `cycleTime` left unchanged; the recognized mappings
resolve as configured. -/
theorem C1_amended (cfg : Config) (op : Operation) :
    (op.type ≠ 'P' → op.type ≠ 'I' → op.type ≠ 'O' → op.type ≠ 'A' → op.type ≠ 'S' →
      set_operation_cycle_time cfg op = .error .unrecognizedOperation) ∧
    ((op.type = 'I' ∨ op.type = 'O') →
      op.description ≠ "hard drive" → op.description ≠ "keyboard" →
      op.description ≠ "monitor" → op.description ≠ "printer" →
      set_operation_cycle_time cfg op = .ok op) ∧
    (op.type = 'P' →
      set_operation_cycle_time cfg op = .ok { op with cycleTime := cfg.processorCycleTime }) ∧
    ((op.type = 'A' ∨ op.type = 'S') →
      set_operation_cycle_time cfg op = .ok { op with cycleTime := 0 }) ∧
    ((op.type = 'I' ∨ op.type = 'O') → op.description = "hard drive" →
      set_operation_cycle_time cfg op = .ok { op with cycleTime := cfg.hardDriveCycleTime }) := by
  refine ⟨fun h1 h2 h3 h4 h5 => ?_, fun h hd hk hm hp => ?_, fun h => ?_, fun h => ?_,
    fun h hd => ?_⟩
  · simp [set_operation_cycle_time, h1, h2, h3, h4, h5]
  · rcases h with h | h <;> simp [set_operation_cycle_time, h, hd, hk, hm, hp]
  · simp [set_operation_cycle_time, h]
  · rcases h with h | h <;> simp [set_operation_cycle_time, h]
  · rcases h with h | h <;> simp [set_operation_cycle_time, h, hd]

/-- C1, witness for the amended theorem at concrete inputs: type `'X'` is
fatal, while `O(tape)` is accepted unchanged. -/
theorem C1_amended_witness :
    set_operation_cycle_time ⟨1, 2, 3, 4, 5⟩ ⟨'X', "run", 1, 7⟩ =
      .error .unrecognizedOperation ∧
    set_operation_cycle_time ⟨1, 2, 3, 4, 5⟩ ⟨'O', "tape", 2, 7⟩ =
      .ok ⟨'O', "tape", 2, 7⟩ :=
  ⟨(C1_amended ⟨1, 2, 3, 4, 5⟩ ⟨'X', "run", 1, 7⟩).1 (by decide) (by decide) (by decide)
      (by decide) (by decide),
   ((C1_amended ⟨1, 2, 3, 4, 5⟩ ⟨'O', "tape", 2, 7⟩).2.1 (Or.inr rfl) (by decide) (by decide)
      (by decide) (by decide))⟩

/-- C2, counterexample.  The claim says a program whose operations are
exactly the two bracketing `A` operations still emits both the
"starting process" and the "removing process" OS events.  In the code the
start branch of `process_operation` consumes *both* bracketing operations
in one step, so the `remaining_operations() == 1` removal check never
fires: the run's whole event trace contains `startingProcess 1` but no
`removingProcess 1`. -/
theorem C2_counterexample :
    (Simulator.run ⟨[⟨[⟨'A', "start", 0, 0⟩, ⟨'A', "end", 0, 0⟩], State.START, 0, 0, 0⟩],
        "FIFO"⟩).toOption.map RunResult.events =
      some [Event.simStart, Event.preparing, Event.setState 0 State.READY, Event.selecting,
        Event.setState 0 State.RUNNING, Event.startingProcess 1, Event.setState 0 State.EXIT,
        Event.simEnd] ∧
    Event.startingProcess 1 ∈
      [Event.simStart, Event.preparing, Event.setState 0 State.READY, Event.selecting,
        Event.setState 0 State.RUNNING, Event.startingProcess 1, Event.setState 0 State.EXIT,
        Event.simEnd] ∧
    Event.removingProcess 1 ∉
      [Event.simStart, Event.preparing, Event.setState 0 State.READY, Event.selecting,
        Event.setState 0 State.RUNNING, Event.startingProcess 1, Event.setState 0 State.EXIT,
        Event.simEnd] := by
  refine ⟨rfl, by decide, by decide⟩

/-- C2, amended.  A program with zero non-bracketing operations (arbitrary
bracketing payloads, ghost tag `t`) still passes through all four states
(it starts in `START`; the assignment trace is Ready, Running, Exit), the
"starting process" event is emitted, and the program completes with an
empty queue — but the "removing process" event is *not* emitted, because
the start branch consumes both bracketing operations in a single
`process_operation` step.  This holds on both scheduling branches. -/
theorem C2_amended (c1 t1 c2 t2 r : Int) (t : Nat) :
    Simulator.run ⟨[⟨[⟨'A', "start", c1, t1⟩, ⟨'A', "end", c2, t2⟩], State.START, r, 0, t⟩],
        "FIFO"⟩ =
      .ok ⟨⟨[⟨[⟨'A', "start", c1, t1⟩, ⟨'A', "end", c2, t2⟩], State.START, r, 0, t⟩], "FIFO"⟩,
           [⟨[], State.EXIT, r, 1, t⟩],
           [⟨[⟨'A', "start", c1, t1⟩, ⟨'A', "end", c2, t2⟩], State.START, r, 0, t⟩],
           [Event.simStart, Event.preparing, Event.setState t State.READY, Event.selecting,
            Event.setState t State.RUNNING, Event.startingProcess 1,
            Event.setState t State.EXIT, Event.simEnd]⟩ ∧
    Simulator.run ⟨[⟨[⟨'A', "start", c1, t1⟩, ⟨'A', "end", c2, t2⟩], State.START, r, 0, t⟩],
        "SRTF-N"⟩ =
      .ok ⟨⟨[⟨[⟨'A', "start", c1, t1⟩, ⟨'A', "end", c2, t2⟩], State.START, r, 0, t⟩], "SRTF-N"⟩,
           [⟨[], State.EXIT, r, 1, t⟩],
           [⟨[⟨'A', "start", c1, t1⟩, ⟨'A', "end", c2, t2⟩], State.READY, r, 0, t⟩],
           [Event.simStart, Event.preparing, Event.setState t State.READY, Event.selecting,
            Event.setState t State.RUNNING, Event.startingProcess 1,
            Event.setState t State.EXIT, Event.simEnd]⟩ ∧
    stateTrace t
      [Event.simStart, Event.preparing, Event.setState t State.READY, Event.selecting,
       Event.setState t State.RUNNING, Event.startingProcess 1, Event.setState t State.EXIT,
       Event.simEnd] = [State.READY, State.RUNNING, State.EXIT] ∧
    Event.startingProcess 1 ∈
      [Event.simStart, Event.preparing, Event.setState t State.READY, Event.selecting,
       Event.setState t State.RUNNING, Event.startingProcess 1, Event.setState t State.EXIT,
       Event.simEnd] ∧
    Event.removingProcess 1 ∉
      [Event.simStart, Event.preparing, Event.setState t State.READY, Event.selecting,
       Event.setState t State.RUNNING, Event.startingProcess 1, Event.setState t State.EXIT,
       Event.simEnd] := by
  refine ⟨rfl, rfl, ?_, ?_, ?_⟩
  · simp [stateTrace]
  · simp
  · simp

/-- C3, counterexample.  Four programs with equal `running_time` (their
start operations differ so the programs are distinguishable; ghost tags
0,1,2,3 record admission order) are dispatched by the SRTF branch in heap
pop order 0,2,1,3 — not in admission order 0,1,2,3.  The priority queue's
binary heap does not break ties by insertion order. -/
theorem C3_counterexample :
    ((srtfRun
        [⟨[⟨'A', "start", 0, 0⟩, ⟨'A', "end", 0, 0⟩], State.START, 0, 0, 0⟩,
         ⟨[⟨'A', "start", 1, 0⟩, ⟨'A', "end", 0, 0⟩], State.START, 0, 0, 1⟩,
         ⟨[⟨'A', "start", 2, 0⟩, ⟨'A', "end", 0, 0⟩], State.START, 0, 0, 2⟩,
         ⟨[⟨'A', "start", 3, 0⟩, ⟨'A', "end", 0, 0⟩], State.START, 0, 0, 3⟩]).toOption.map
      fun o => o.dispatched.map Program.tag) = some [0, 2, 1, 3] ∧
    ([⟨[⟨'A', "start", 0, 0⟩, ⟨'A', "end", 0, 0⟩], State.START, 0, 0, 0⟩,
      ⟨[⟨'A', "start", 1, 0⟩, ⟨'A', "end", 0, 0⟩], State.START, 0, 0, 1⟩,
      ⟨[⟨'A', "start", 2, 0⟩, ⟨'A', "end", 0, 0⟩], State.START, 0, 0, 2⟩,
      ⟨[⟨'A', "start", 3, 0⟩, ⟨'A', "end", 0, 0⟩], State.START, 0, 0,
        3⟩] : List Program).map Program.running_time = [0, 0, 0, 0] ∧
    ([0, 2, 1, 3] : List Nat) ≠ [0, 1, 2, 3] :=
  ⟨rfl, rfl, by decide⟩

/-- C4, counterexample.  Under SRTF-N a program with two inner `P`
operations needs two dispatch steps; after the first it is set back from
Running to Ready — its state-assignment trace is Ready, Running, Ready,
Running, Exit, which is not monotone in the Start→Ready→Running→Exit
order: the claimed "no regression" fails. -/
theorem C4_counterexample :
    ((srtfRun
        [⟨[⟨'A', "start", 0, 0⟩, ⟨'P', "run", 1, 10⟩, ⟨'P', "run", 1, 10⟩,
           ⟨'A', "end", 0, 0⟩], State.START, 20, 0, 0⟩]).toOption.map
      fun o => stateTrace 0 o.events) =
      some [State.READY, State.RUNNING, State.READY, State.RUNNING, State.EXIT] ∧
    ¬ List.Chain' (fun a b => stRank a ≤ stRank b)
        [State.READY, State.RUNNING, State.READY, State.RUNNING, State.EXIT] :=
  ⟨rfl, by simp [List.chain'_cons, stRank]⟩

/-- C5, counterexample.  The claim says every iteration of the SRTF loop
executes exactly one Operation.  For a program holding only its two
bracketing operations the single loop iteration dispatches it, executes
zero timed operations (its event trace contains no processing or device
start), and finishes it. -/
theorem C5_counterexample :
    ((srtfIteration
        [⟨[⟨'A', "start", 0, 0⟩, ⟨'A', "end", 0, 0⟩], State.READY, 0, 0, 0⟩] 0).toOption.map
      fun o => o.map fun it => (timedCount it.events, it.finished, it.q.operations)) =
      some (some (0, true, [])) := rfl

/-- C7, counterexample.  The claim says a program token run that does not
begin with `A(start)0` is a fatal format error.  The loader never checks
the opening bracket: it accepts the stream whose only program is
`P(run)5; A(end)0` — the first program token it extracts is `P(run)5`,
not `A(start)0`, and loading succeeds. -/
theorem C7_counterexample :
    load_meta_data ⟨10, 20, 30, 40, 50⟩
        ("Start Program Meta-Data Code:\nS(start)0;\nP(run)5; A(end)0;\nS(end)0.\nEnd Program Meta-Data Code.".toList)
        ⟨'?', "", 0, 0⟩ =
      .ok [⟨[⟨'P', "run", 5, 10⟩, ⟨'A', "end", 0, 0⟩], State.START, 50, 0, 0⟩] ∧
    (getlineD ';'
        ((getlineD ';'
            "Start Program Meta-Data Code:\nS(start)0;\nP(run)5; A(end)0;\nS(end)0.\nEnd Program Meta-Data Code.".toList).2.dropWhile
          isWsChar)).1 = "P(run)5" ∧
    ("P(run)5" : String) ≠ "A(start)0" :=
  ⟨rfl, rfl, by decide⟩

/-- Splitting a `;`-token off a stream: when the token itself contains no
delimiter, `getline` returns exactly the token and the remainder. -/
theorem takeWhile_no_delim (d : Char) (tok rest : List Char)
    (h : ∀ c ∈ tok, ¬ c = d) :
    (tok ++ d :: rest).takeWhile (notDelim d) = tok := by
  induction tok with
  | nil => simp [List.takeWhile_cons, notDelim]
  | cons c cs ih =>
    simp only [List.cons_append, List.takeWhile_cons]
    have hc : ¬ c = d := h c (by simp)
    simp [notDelim, hc, ih fun x hx => h x (by simp [hx])]

/-- Dropping a delimited token plus its delimiter leaves the remainder. -/
theorem drop_past_delim (d : Char) (tok rest : List Char) :
    (tok ++ d :: rest).drop (tok.length + 1) = rest := by
  induction tok with
  | nil => simp
  | cons c cs ih => simp [ih]

/-- `getline` on a stream whose next token contains no delimiter. -/
theorem getlineD_no_delim (d : Char) (tok rest : List Char)
    (h : ∀ c ∈ tok, ¬ c = d) :
    getlineD d (tok ++ d :: rest) = (String.mk tok, rest) := by
  unfold getlineD
  rw [takeWhile_no_delim d tok rest h]
  simp [drop_past_delim d tok rest]

/-- C7, amended.  A missing preamble, a missing `S(end)0` terminator, a
missing final line, and an unparsable cycle count in a program token are
all fatal; but the loader never checks that a program token run *begins*
with `A(start)0` — any token run ending at `A(end)0` is accepted (see the
counterexample), so not every malformed bracket is rejected. -/
theorem C7_amended :
    (∀ (cfg : Config) (s : List Char) (initOp : Operation),
      (getlineD ';' s).1 ≠ "Start Program Meta-Data Code:\nS(start)0" →
      load_meta_data cfg s initOp = .error .metaStartFlag) ∧
    (∀ (cfg : Config) (s : List Char) (initOp : Operation) (ps : List Program)
        (cur : Operation) (s2 : List Char),
      (getlineD ';' s).1 = "Start Program Meta-Data Code:\nS(start)0" →
      load_programs cfg (((getlineD ';' s).2.dropWhile isWsChar).length + 1) initOp []
          ((getlineD ';' s).2.dropWhile isWsChar) = .ok (ps, cur, s2) →
      (getlineD '.' s2).1 ≠ "S(end)0" →
      load_meta_data cfg s initOp = .error .metaEndFlag) ∧
    (∀ (cfg : Config) (s : List Char) (initOp : Operation) (ps : List Program)
        (cur : Operation) (s2 : List Char),
      (getlineD ';' s).1 = "Start Program Meta-Data Code:\nS(start)0" →
      load_programs cfg (((getlineD ';' s).2.dropWhile isWsChar).length + 1) initOp []
          ((getlineD ';' s).2.dropWhile isWsChar) = .ok (ps, cur, s2) →
      (getlineD '.' s2).1 = "S(end)0" →
      (getlineD '.' ((getlineD '.' s2).2.dropWhile isWsChar)).1 ≠ "End Program Meta-Data Code" →
      load_meta_data cfg s initOp = .error .metaLastLine) ∧
    (∀ (cfg : Config) (fuel : Nat) (cur : Operation) (acc : Program)
        (tok rest : List Char) (e : Err),
      (∀ c ∈ tok, ¬ c = ';') →
      parse_token (String.mk tok) cur = .error e →
      load_program cfg (fuel + 1) cur acc (tok ++ ';' :: rest) = .error e) := by
  refine ⟨?_, ?_, ?_, ?_⟩
  · intro cfg s initOp h
    simp [load_meta_data, h]
  · intro cfg s initOp ps cur s2 h1 h2 h3
    simp [load_meta_data, h1, h2, h3]
  · intro cfg s initOp ps cur s2 h1 h2 h3 h4
    simp [load_meta_data, h1, h2, h3, h4]
  · intro cfg fuel cur acc tok rest e hno hp
    have hg := getlineD_no_delim ';' tok rest hno
    simp [load_program, hg, hp]

/-- C7, witness for the amended theorem: a stream with a corrupt preamble
is rejected with `metaStartFlag`, and a token with an unparsable cycle
count (`P(run)x`) aborts the program loop with `stoiInvalid`. -/
theorem C7_amended_witness :
    load_meta_data ⟨1, 2, 3, 4, 5⟩ ("Bogus;rest".toList) ⟨'?', "", 0, 0⟩ =
      .error .metaStartFlag ∧
    load_program ⟨1, 2, 3, 4, 5⟩ 4 ⟨'?', "", 0, 0⟩
        ⟨[], State.START, 0, 0, 0⟩ ("P(run)x".toList ++ ';' :: "A(end)0;".toList) =
      .error .stoiInvalid :=
  ⟨C7_amended.1 ⟨1, 2, 3, 4, 5⟩ ("Bogus;rest".toList) ⟨'?', "", 0, 0⟩ (by decide),
   C7_amended.2.2.2 ⟨1, 2, 3, 4, 5⟩ 3 ⟨'?', "", 0, 0⟩ ⟨[], State.START, 0, 0, 0⟩
     ("P(run)x".toList) ("A(end)0;".toList) .stoiInvalid (by decide) rfl⟩

/-- C10.  `Simulator::run` never writes the stored `programs_`: both
branches iterate the member with by-value range-for copies and push copies
on the queue, mutating only those copies — embedded as `run` returning the
simulator with `programs_` untouched.  Consequently every stored program
keeps its initial `START` state, id 0 and full operations queue. -/
theorem C10_theorem (sim : Simulator) (r : RunResult) (h : sim.run = .ok r) :
    r.simulator.programs_ = sim.programs_ ∧
    ((∀ p ∈ sim.programs_, p.state = State.START ∧ p.id = 0) →
      ∀ p ∈ r.simulator.programs_,
        p.state = State.START ∧ p.id = 0 ∧ p ∈ sim.programs_) := by
  unfold Simulator.run at h
  split at h
  · exact absurd h (by simp)
  · injection h with h2
    subst h2
    exact ⟨rfl, fun hall p hp => ⟨(hall p hp).1, (hall p hp).2, hp⟩⟩

/-- C10, witness: a concrete one-program FIFO run returns the stored
program list unchanged. -/
theorem C10_witness :
    (RunResult.simulator
        ⟨⟨[⟨[⟨'A', "end", 0, 0⟩], State.START, 0, 0, 0⟩], "FIFO"⟩,
         [⟨[], State.EXIT, 0, 1, 0⟩],
         [⟨[⟨'A', "end", 0, 0⟩], State.START, 0, 0, 0⟩],
         [Event.simStart, Event.preparing, Event.setState 0 State.READY, Event.selecting,
          Event.setState 0 State.RUNNING, Event.setState 0 State.EXIT,
          Event.simEnd]⟩).programs_ =
      (Simulator.programs_ ⟨[⟨[⟨'A', "end", 0, 0⟩], State.START, 0, 0, 0⟩], "FIFO"⟩) ∧
    ((∀ p ∈ (Simulator.programs_ ⟨[⟨[⟨'A', "end", 0, 0⟩], State.START, 0, 0, 0⟩], "FIFO"⟩),
        p.state = State.START ∧ p.id = 0) →
      ∀ p ∈ (RunResult.simulator
          ⟨⟨[⟨[⟨'A', "end", 0, 0⟩], State.START, 0, 0, 0⟩], "FIFO"⟩,
           [⟨[], State.EXIT, 0, 1, 0⟩],
           [⟨[⟨'A', "end", 0, 0⟩], State.START, 0, 0, 0⟩],
           [Event.simStart, Event.preparing, Event.setState 0 State.READY, Event.selecting,
            Event.setState 0 State.RUNNING, Event.setState 0 State.EXIT,
            Event.simEnd]⟩).programs_,
        p.state = State.START ∧ p.id = 0 ∧
          p ∈ (Simulator.programs_ ⟨[⟨[⟨'A', "end", 0, 0⟩], State.START, 0, 0, 0⟩], "FIFO"⟩)) :=
  C10_theorem ⟨[⟨[⟨'A', "end", 0, 0⟩], State.START, 0, 0, 0⟩], "FIFO"⟩
    ⟨⟨[⟨[⟨'A', "end", 0, 0⟩], State.START, 0, 0, 0⟩], "FIFO"⟩,
     [⟨[], State.EXIT, 0, 1, 0⟩],
     [⟨[⟨'A', "end", 0, 0⟩], State.START, 0, 0, 0⟩],
     [Event.simStart, Event.preparing, Event.setState 0 State.READY, Event.selecting,
      Event.setState 0 State.RUNNING, Event.setState 0 State.EXIT, Event.simEnd]⟩ rfl

/-! ### List index helpers -/

theorem getD_set_self (l : List Program) (i : Nat) (v : Program) (h : i < l.length) :
    (l.set i v).getD i default = v := by
  rw [List.getD_eq_getElem?_getD, List.getElem?_set_self h]
  rfl

theorem getD_set_ne (l : List Program) (i j : Nat) (v : Program) (h : i ≠ j) :
    (l.set i v).getD j default = l.getD j default := by
  rw [List.getD_eq_getElem?_getD, List.getElem?_set_ne h, ← List.getD_eq_getElem?_getD]

theorem set_getD_self (l : List Program) (i : Nat) (h : i < l.length) :
    l.set i (l.getD i default) = l := by
  induction l generalizing i with
  | nil => simp
  | cons a as ih =>
    cases i with
    | zero => simp
    | succ n =>
      simp only [List.getD_cons_succ, List.set_cons_succ, List.cons.injEq, true_and]
      exact ih n (by simpa using h)

theorem keyAt_set (arr : List Program) (i j : Nat) (v : Program) (hj : j < arr.length) :
    keyAt (arr.set i v) j = if i = j then v.running_time else keyAt arr j := by
  unfold keyAt
  split
  · next heq => rw [heq, getD_set_self _ _ _ (heq ▸ hj)]
  · next hne => rw [getD_set_ne _ _ _ _ hne]

theorem keyAt_take (l : List Program) (k i : Nat) (h : i < k) :
    keyAt (l.take k) i = keyAt l i := by
  unfold keyAt
  rw [List.getD_eq_getElem?_getD, List.getD_eq_getElem?_getD, List.getElem?_take,
    if_pos h]

theorem getD_append_left (l : List Program) (v : Program) (i : Nat) (h : i < l.length) :
    (l ++ [v]).getD i default = l.getD i default := by
  rw [List.getD_eq_getElem?_getD, List.getD_eq_getElem?_getD, List.getElem?_append,
    if_pos h]

theorem getD_concat_length (l : List Program) (v : Program) :
    (l ++ [v]).getD l.length default = v := by
  rw [List.getD_eq_getElem?_getD, List.getElem?_concat_length]
  rfl

theorem eq_take_concat (l : List Program) (h : l ≠ []) :
    l = l.take (l.length - 1) ++ [l.getD (l.length - 1) default] := by
  conv_lhs => rw [← List.dropLast_append_getLast h]
  rw [List.dropLast_eq_take, List.getLast_eq_getElem,
    List.getD_eq_getElem l default (by have := List.length_pos.mpr h; omega)]

/-- Net multiset effect of a hole-move: overwriting the hole with a copy
of position `p` and then placing `v` at `p` is, up to permutation, just
placing `v` at the hole. -/
theorem set_move_perm (arr : List Program) (h p : Nat) (v : Program) (hne : h ≠ p)
    (hh : h < arr.length) (hp : p < arr.length) :
    ((arr.set h (arr.getD p default)).set p v).Perm (arr.set h v) := by
  rw [List.perm_iff_count]
  intro a
  have hp1 : p < (arr.set h (arr.getD p default)).length := by simpa using hp
  rw [List.count_set _ _ _ _ hp1, List.count_set _ _ _ _ hh, List.count_set _ _ _ _ hh]
  have e1 : (arr.set h (arr.getD p default))[p] = arr[p] :=
    List.getElem_set_ne hne hp1
  have e2 : arr.getD p default = arr[p] := List.getD_eq_getElem arr default hp
  rw [e1, e2]
  have hc : (if (arr[h] == a) = true then 1 else 0) ≤ List.count a arr := by
    split
    · next hb =>
      have : a ∈ arr := by
        have := List.getElem_mem hh
        rwa [eq_of_beq hb] at this
      simpa using List.count_pos_iff.mpr this
    · omega
  omega

/-! ### Heap lemmas: multiset and shape preservation -/

theorem siftUpF_length (fuel : Nat) (arr : List Program) (top hole : Nat) (v : Program) :
    (siftUpF fuel arr top hole v).length = arr.length := by
  induction fuel generalizing arr hole with
  | zero => simp [siftUpF]
  | succ fuel ih =>
    simp only [siftUpF]
    split
    · split
      · rw [ih]
        simp
      · simp
    · simp

theorem siftUpF_getD_high (fuel : Nat) (arr : List Program) (top hole : Nat)
    (v : Program) (j : Nat) (hj : hole < j) :
    (siftUpF fuel arr top hole v).getD j default = arr.getD j default := by
  induction fuel generalizing arr hole with
  | zero => exact getD_set_ne _ _ _ _ (by omega)
  | succ fuel ih =>
    simp only [siftUpF]
    split
    · next htop =>
      split
      · rw [ih _ _ (by omega)]
        exact getD_set_ne _ _ _ _ (by omega)
      · exact getD_set_ne _ _ _ _ (by omega)
    · exact getD_set_ne _ _ _ _ (by omega)

theorem siftUpF_perm (fuel : Nat) (arr : List Program) (hole : Nat) (v : Program)
    (hf : hole < fuel) (hl : hole < arr.length) :
    (siftUpF fuel arr 0 hole v).Perm (arr.set hole v) := by
  induction fuel generalizing arr hole with
  | zero => omega
  | succ fuel ih =>
    simp only [siftUpF]
    split
    · next htop =>
      split
      · next hgt =>
        refine List.Perm.trans (ih _ _ (by omega) (by simpa using (by omega : (hole - 1) / 2 < arr.length))) ?_
        exact set_move_perm arr hole ((hole - 1) / 2) v (by omega) hl (by omega)
      · exact List.Perm.refl _
    · exact List.Perm.refl _

theorem gt_true_iff (a b : Program) :
    Program.gt a b = true ↔ b.running_time < a.running_time := by
  simp [Program.gt]

theorem gt_false_iff (a b : Program) :
    Program.gt a b = false ↔ a.running_time ≤ b.running_time := by
  simp [Program.gt]

theorem keyAt_getD (arr : List Program) (i : Nat) :
    (arr.getD i default).running_time = keyAt arr i := rfl

/-- The chosen child is one of the two children of `second` and carries
the smaller key of the two. -/
theorem adjChild_spec (arr : List Program) (second len : Nat)
    (hch : 2 * second + 2 < len) :
    (adjChild arr second = 2 * second + 1 ∨ adjChild arr second = 2 * second + 2) ∧
    keyAt arr (adjChild arr second) ≤ keyAt arr (2 * second + 1) ∧
    keyAt arr (adjChild arr second) ≤ keyAt arr (2 * second + 2) := by
  unfold adjChild
  have e1 : 2 * (second + 1) = 2 * second + 2 := by omega
  rw [e1]
  have e2 : 2 * second + 2 - 1 = 2 * second + 1 := by omega
  rw [e2]
  split
  · next h =>
    exact ⟨Or.inl rfl, le_refl _, le_of_lt ((gt_true_iff _ _).mp h)⟩
  · next h =>
    refine ⟨Or.inr rfl, ?_, le_refl _⟩
    exact (gt_false_iff _ _).mp (Bool.eq_false_iff.mpr h)

/-- One step of the descending phase preserves the down-phase invariant:
moving the smaller child `sc` of the `hole` up into the hole makes `sc`
the new hole. -/
theorem downInv_step (arr : List Program) (len hole sc : Nat)
    (hlen : len ≤ arr.length) (hch : 2 * hole + 2 < len)
    (hsc : sc = 2 * hole + 1 ∨ sc = 2 * hole + 2)
    (hmin1 : keyAt arr sc ≤ keyAt arr (2 * hole + 1))
    (hmin2 : keyAt arr sc ≤ keyAt arr (2 * hole + 2))
    (hinv : DownInvL arr len hole) :
    DownInvL (arr.set hole (arr.getD sc default)) len sc := by
  have hkey : ∀ x, x < len →
      keyAt (arr.set hole (arr.getD sc default)) x =
        if hole = x then keyAt arr sc else keyAt arr x := by
    intro x hx
    rw [keyAt_set arr hole x _ (by omega)]
    rfl
  constructor
  · intro c hc hc0 hcsc hpsc
    rcases Nat.eq_zero_or_pos hole with h0 | h0
    · -- hole = 0: every 0 < c has parent chain fine
      by_cases hchole : c = hole
      · omega
      · by_cases hphole : (c - 1) / 2 = hole
        · -- c is a child of the old hole: sibling of sc (c ≠ sc)
          rw [hkey _ (by omega), hkey _ hc, if_pos (by omega), if_neg (by omega)]
          have : c = 2 * hole + 1 ∨ c = 2 * hole + 2 := by omega
          rcases this with rfl | rfl
          · exact hmin1
          · exact hmin2
        · rw [hkey _ (by omega), hkey _ hc, if_neg (by omega), if_neg (by omega)]
          exact hinv.1 c hc hc0 hchole hphole
    · by_cases hchole : c = hole
      · -- edge into the old hole, which now holds the sc copy
        subst hchole
        rw [hkey _ (by omega), hkey _ hc, if_neg (by omega), if_pos rfl]
        exact hinv.2 h0 sc (by omega) (by omega)
      · by_cases hphole : (c - 1) / 2 = hole
        · rw [hkey _ (by omega), hkey _ hc, if_pos (by omega), if_neg (by omega)]
          have : c = 2 * hole + 1 ∨ c = 2 * hole + 2 := by omega
          rcases this with rfl | rfl
          · exact hmin1
          · exact hmin2
        · rw [hkey _ (by omega), hkey _ hc, if_neg (by omega), if_neg (by omega)]
          exact hinv.1 c hc hc0 hchole hphole
  · intro hsc0 c hc hpc
    have hpar : (sc - 1) / 2 = hole := by omega
    rw [hpar, hkey _ (by omega), hkey _ hc, if_pos rfl, if_neg (by omega)]
    have h5 := hinv.1 c hc (by omega) (by omega) (by omega)
    rw [hpc] at h5
    exact h5

/-- Full specification of the descending phase (called with
`hole = second`, as `adjustHeap` does): shape of the result, preservation
of entries beyond `len`, the multiset effect, and the invariant. -/
theorem adjustDownF_spec (fuel : Nat) :
    ∀ (arr a' : List Program) (hole h' s' len : Nat),
    hole < len → len ≤ arr.length → (len - 1) / 2 ≤ hole + fuel →
    adjustDownF fuel arr hole hole len = (a', h', s') →
    a'.length = arr.length ∧ h' = s' ∧ hole ≤ h' ∧ h' < len ∧
    ¬ (s' < (len - 1) / 2) ∧
    (∀ j, len ≤ j → a'.getD j default = arr.getD j default) ∧
    (∀ x, (a'.set h' x).Perm (arr.set hole x)) ∧
    (DownInvL arr len hole → DownInvL a' len h') := by
  induction fuel with
  | zero =>
    intro arr a' hole h' s' len h1 h2 h3 heq
    have hg : ¬ (hole < (len - 1) / 2) := by omega
    simp only [adjustDownF, Prod.mk.injEq] at heq
    obtain ⟨rfl, rfl, rfl⟩ := heq
    exact ⟨rfl, rfl, le_refl _, h1, hg, fun j _ => rfl, fun x => List.Perm.refl _,
      fun hinv => hinv⟩
  | succ fuel ih =>
    intro arr a' hole h' s' len h1 h2 h3 heq
    by_cases hg : hole < (len - 1) / 2
    · -- loop body runs; the chosen child is adjChild arr hole
      have hch : 2 * hole + 2 < len := by omega
      obtain ⟨hscor, hm1, hm2⟩ := adjChild_spec arr hole len hch
      have hsc_lb : 2 * hole + 1 ≤ adjChild arr hole := by
        rcases hscor with h | h <;> omega
      have hsc_ub : adjChild arr hole < len := by
        rcases hscor with h | h <;> omega
      simp only [adjustDownF, if_pos hg] at heq
      obtain ⟨hl', he', hle', hlt', hg', hj', hp', hi'⟩ :=
        ih (arr.set hole (arr.getD (adjChild arr hole) default)) a'
          (adjChild arr hole) h' s' len hsc_ub (by simpa using h2) (by omega) heq
      refine ⟨by simpa using hl', he', by omega, hlt', hg', ?_, ?_, ?_⟩
      · intro j hj
        rw [hj' j hj, getD_set_ne _ _ _ _ (by omega)]
      · intro x
        refine List.Perm.trans (hp' x) ?_
        exact set_move_perm arr hole (adjChild arr hole) x (by omega) (by omega)
          (by omega)
      · intro hinv
        exact hi' (downInv_step arr len hole (adjChild arr hole) h2 hch hscor
          hm1 hm2 hinv)
    · simp only [adjustDownF, if_neg hg, Prod.mk.injEq] at heq
      obtain ⟨rfl, rfl, rfl⟩ := heq
      exact ⟨rfl, rfl, le_refl _, h1, hg, fun j _ => rfl, fun x => List.Perm.refl _,
        fun hinv => hinv⟩

/-- Sifting `value` up from a hole whose preconditions hold produces a
heap on the first `len` positions. -/
theorem siftUpF_isHeap (fuel : Nat) :
    ∀ (arr : List Program) (hole : Nat) (v : Program) (len : Nat),
    hole < fuel → hole < len → len ≤ arr.length →
    HeapExceptL arr len hole v → GrandCondL arr len hole →
    IsHeapL (siftUpF fuel arr 0 hole v) len := by
  induction fuel with
  | zero =>
    intro arr hole v len hf
    omega
  | succ fuel ih =>
    intro arr hole v len hf hl hlen hexc hgrand
    have hW : ∀ x, x < len →
        keyAt (arr.set hole v) x = if hole = x then v.running_time else keyAt arr x :=
      fun x hx => keyAt_set arr hole x v (by omega)
    simp only [siftUpF]
    split
    · next htop =>
      split
      · next hgt =>
        rw [gt_true_iff] at hgt
        rw [keyAt_getD] at hgt
        -- recurse from the parent hole
        refine ih (arr.set hole (arr.getD ((hole - 1) / 2) default)) ((hole - 1) / 2)
          v len (by omega) (by omega) (by simpa using hlen) ?_ ?_
        · -- HeapExceptL for the new configuration
          intro i hi hi0 hipar
          have hW' : ∀ x, x < len →
              keyAt ((arr.set hole (arr.getD ((hole - 1) / 2) default)).set ((hole - 1) / 2) v) x =
                if (hole - 1) / 2 = x then v.running_time
                else if hole = x then keyAt arr ((hole - 1) / 2) else keyAt arr x := by
            intro x hx
            rw [keyAt_set _ ((hole - 1) / 2) x v (by simp; omega),
              keyAt_set arr hole x _ (by omega), keyAt_getD]
          by_cases hih : i = hole
          · -- edge from the new hole into the old hole
            subst hih
            rw [hW' _ (by omega), hW' _ hl, if_pos rfl, if_neg (by omega), if_pos rfl]
            exact le_of_lt hgt
          · by_cases hip : (i - 1) / 2 = (hole - 1) / 2
            · -- sibling of the old hole
              rw [hW' _ (by omega), hW' _ hi, if_pos hip.symm, if_neg (by omega),
                if_neg (by omega)]
              have h1 := hexc i hi hi0 hih
              rw [hW _ (by omega), hW _ hi, if_neg (by omega), if_neg (by omega),
                hip] at h1
              exact le_trans (le_of_lt hgt) h1
            · by_cases hihole : (i - 1) / 2 = hole
              · -- child of the old hole: grandparent condition
                rw [hW' _ (by omega), hW' _ hi, hihole, if_neg (by omega), if_pos rfl,
                  if_neg (by omega), if_neg (by omega)]
                exact hgrand htop i hi hihole
              · -- untouched edge
                rw [hW' _ (by omega), hW' _ hi, if_neg (by omega), if_neg (by omega),
                  if_neg (by omega), if_neg (by omega)]
                have h1 := hexc i hi hi0 hih
                rw [hW _ (by omega), hW _ hi, if_neg (by omega), if_neg (by omega)] at h1
                exact h1
        · -- GrandCondL for the new configuration
          intro hp0 c hc hpc
          have hW' : ∀ x, x < len →
              keyAt (arr.set hole (arr.getD ((hole - 1) / 2) default)) x =
                if hole = x then keyAt arr ((hole - 1) / 2) else keyAt arr x := by
            intro x hx
            rw [keyAt_set arr hole x _ (by omega), keyAt_getD]
          have hparpar : ((hole - 1) / 2 - 1) / 2 ≠ hole := by omega
          by_cases hchole : c = hole
          · rw [hchole]
            rw [hW' _ (by omega), hW' _ (by omega), if_neg (by omega), if_pos rfl]
            have h1 := hexc ((hole - 1) / 2) (by omega) hp0 (by omega)
            rw [hW _ (by omega), hW _ (by omega), if_neg (by omega),
              if_neg (by omega)] at h1
            exact h1
          · rw [hW' _ (by omega), hW' _ hc, if_neg (by omega), if_neg (by omega)]
            have h1 := hexc c hc (by omega) hchole
            rw [hW _ (by omega), hW _ hc, if_neg (by omega), if_neg (by omega), hpc] at h1
            have h2 := hexc ((hole - 1) / 2) (by omega) (by omega) (by omega)
            rw [hW _ (by omega), hW _ (by omega), if_neg (by omega),
              if_neg (by omega)] at h2
            exact le_trans h2 h1
      · next hgt =>
        -- parent does not dominate: place the value here
        have hge : keyAt arr ((hole - 1) / 2) ≤ v.running_time := by
          have := (gt_false_iff (arr.getD ((hole - 1) / 2) default) v).mp
            (Bool.eq_false_iff.mpr hgt)
          rwa [keyAt_getD] at this
        intro i hi hi0
        by_cases hih : i = hole
        · subst hih
          rw [hW _ (by omega), hW _ hi, if_neg (by omega), if_pos rfl]
          exact hge
        · exact hexc i hi hi0 hih
    · next htop =>
      -- hole = 0: no edge enters the root
      have h0 : hole = 0 := by omega
      intro i hi hi0
      exact hexc i hi hi0 (by omega)

/-- Full specification of `adjustHeap` at the root hole: length and
beyond-`len` entries preserved, multiset effect is placing `value` at the
root, and heap shape is restored from the down-phase invariant. -/
theorem adjustHeap_spec (arr : List Program) (len : Nat) (v : Program)
    (hlen0 : 0 < len) (hlen : len ≤ arr.length) :
    (adjustHeap arr 0 len v).length = arr.length ∧
    (∀ j, len ≤ j → (adjustHeap arr 0 len v).getD j default = arr.getD j default) ∧
    (adjustHeap arr 0 len v).Perm (arr.set 0 v) ∧
    (DownInvL arr len 0 → IsHeapL (adjustHeap arr 0 len v) len) := by
  rcases hr : adjustDownF len arr 0 0 len with ⟨a1, h1, s1⟩
  obtain ⟨hl, hhs, _, hlt, hng, hjhigh, hperm, hinv⟩ :=
    adjustDownF_spec len arr a1 0 h1 s1 len hlen0 hlen (by omega) hr
  by_cases heven : (len % 2 = 0 ∧ 2 ≤ len ∧ s1 = (len - 2) / 2)
  · obtain ⟨he1, he2, he3⟩ := heven
    have hsc : 2 * (s1 + 1) - 1 = len - 1 := by omega
    have hh1 : h1 = (len - 2) / 2 := by omega
    have hh1lt : h1 < len - 1 := by omega
    simp only [adjustHeap, hr, if_pos (show len % 2 = 0 ∧ 2 ≤ len ∧ s1 = (len - 2) / 2
      from ⟨he1, he2, he3⟩), hsc]
    have hlen1 : (a1.set h1 (a1.getD (len - 1) default)).length = arr.length := by
      simpa using hl
    refine ⟨?_, ?_, ?_, ?_⟩
    · rw [siftUp, siftUpF_length, hlen1]
    · intro j hj
      rw [siftUp, siftUpF_getD_high _ _ _ _ _ j (by omega),
        getD_set_ne _ _ _ _ (by omega), hjhigh j hj]
    · refine List.Perm.trans (siftUpF_perm _ _ _ _ (by omega) (by omega)) ?_
      refine List.Perm.trans
        (set_move_perm a1 h1 (len - 1) v (by omega) (by omega) (by omega)) ?_
      exact hperm v
    · intro hdinv
      have hinv1 := hinv hdinv
      rw [siftUp]
      apply siftUpF_isHeap _ _ _ _ _ (by omega) (by omega) (by omega)
      · -- HeapExceptL (a1.set h1 (a1.getD (len-1) default)) len (len-1) v
        intro i hi hi0 hine
        have hW2 : ∀ x, x < len →
            keyAt ((a1.set h1 (a1.getD (len - 1) default)).set (len - 1) v) x =
              if len - 1 = x then v.running_time
              else if h1 = x then keyAt a1 (len - 1) else keyAt a1 x := by
          intro x hx
          rw [keyAt_set _ (len - 1) x v (by simp; omega), keyAt_set a1 h1 x _ (by omega),
            keyAt_getD]
        by_cases hih : i = h1
        · rw [hih]
          rw [hW2 _ (by omega), hW2 _ (by omega), if_neg (by omega), if_neg (by omega),
            if_neg (by omega), if_pos rfl]
          exact hinv1.2 (by omega) (len - 1) (by omega) (by omega)
        · by_cases hpar : (i - 1) / 2 = h1
          · omega
          · by_cases hpar2 : (i - 1) / 2 = len - 1
            · omega
            · rw [hW2 _ (by omega), hW2 _ hi, if_neg (by omega), if_neg (by omega),
                if_neg (by omega), if_neg (by omega)]
              exact hinv1.1 i hi hi0 hih hpar
      · intro h0 c hc hpc
        omega
  · simp only [adjustHeap, hr, if_neg heven]
    have hnoch : len ≤ 2 * h1 + 1 := by omega
    refine ⟨?_, ?_, ?_, ?_⟩
    · rw [siftUp, siftUpF_length, hl]
    · intro j hj
      rw [siftUp, siftUpF_getD_high _ _ _ _ _ j (by omega), hjhigh j hj]
    · exact List.Perm.trans (siftUpF_perm _ _ _ _ (by omega) (by omega)) (hperm v)
    · intro hdinv
      have hinv1 := hinv hdinv
      rw [siftUp]
      apply siftUpF_isHeap _ _ _ _ _ (by omega) (by omega) (by omega)
      · intro i hi hi0 hine
        have hW : ∀ x, x < len →
            keyAt (a1.set h1 v) x = if h1 = x then v.running_time else keyAt a1 x :=
          fun x hx => keyAt_set a1 h1 x v (by omega)
        by_cases hpar : (i - 1) / 2 = h1
        · omega
        · rw [hW _ (by omega), hW _ hi, if_neg (by omega), if_neg (by omega)]
          exact hinv1.1 i hi hi0 hine hpar
      · intro h0 c hc hpc
        omega

/-- Appending and then writing the same value at the appended slot is the
identity. -/
theorem concat_set_last (l : List Program) (v : Program) :
    (l ++ [v]).set l.length v = l ++ [v] := by
  have h := set_getD_self (l ++ [v]) l.length (by simp)
  rwa [getD_concat_length] at h

theorem heapPush_perm (arr : List Program) (v : Program) :
    (heapPush arr v).Perm (arr ++ [v]) := by
  unfold heapPush siftUp
  have h := siftUpF_perm (arr.length + 1) (arr ++ [v]) arr.length v (by omega) (by simp)
  rwa [concat_set_last] at h

theorem heapPush_length (arr : List Program) (v : Program) :
    (heapPush arr v).length = arr.length + 1 := by
  unfold heapPush siftUp
  rw [siftUpF_length]
  simp

/-- Pushing on a heap keeps the heap shape (libstdc++ `push_heap`). -/
theorem heapPush_isHeap (arr : List Program) (v : Program) (hh : IsHeap arr) :
    IsHeap (heapPush arr v) := by
  unfold IsHeap
  rw [heapPush_length]
  unfold heapPush siftUp
  apply siftUpF_isHeap _ _ _ _ _ (by omega) (by omega) (by simp)
  · intro i hi hi0 hin
    rw [concat_set_last]
    unfold keyAt
    rw [getD_append_left _ _ _ (by omega), getD_append_left _ _ _ (by omega)]
    exact hh i (by omega) hi0
  · intro h0 c hc hpc
    omega

/-- `pop` on the empty queue only. -/
theorem heapPop_eq_none (arr : List Program) : heapPop arr = none ↔ arr = [] := by
  cases arr <;> simp [heapPop]

/-- Shape of a successful pop: the returned element is the root, the rest
is one shorter, and together they are a permutation of the heap. -/
theorem heapPop_spec (arr : List Program) (p : Program) (rest : List Program)
    (he : heapPop arr = some (p, rest)) :
    p = arr.getD 0 default ∧ rest.length = arr.length - 1 ∧ (p :: rest).Perm arr := by
  cases arr with
  | nil => simp [heapPop] at he
  | cons a as =>
    by_cases has : as = []
    · subst has
      have h1 : heapPop [a] = some (a, []) := rfl
      rw [h1] at he
      have h2 : a = p ∧ ([] : List Program) = rest := by
        simpa using he
      obtain ⟨rfl, rfl⟩ := h2
      exact ⟨rfl, rfl, List.Perm.refl _⟩
    · have hn2 : 2 ≤ (a :: as).length := by
        cases as
        · exact absurd rfl has
        · simp
      set n := (a :: as).length with hn
      set top := (a :: as).getD 0 default with htop
      set value := (a :: as).getD (n - 1) default with hvalue
      set A1 := (a :: as).set (n - 1) top with hA1
      set A2 := adjustHeap A1 0 (n - 1) value with hA2
      have hee : heapPop (a :: as) = some (top, A2.take (n - 1)) := rfl
      rw [hee] at he
      have h2 : top = p ∧ A2.take (n - 1) = rest := by simpa using he
      obtain ⟨rfl, rfl⟩ := h2
      have hA1len : A1.length = n := by
        rw [hA1, List.length_set]
      obtain ⟨hl2, hhigh2, hperm2, _⟩ :=
        adjustHeap_spec A1 (n - 1) value (by omega) (by omega)
      rw [hA1len] at hl2
      refine ⟨rfl, ?_, ?_⟩
      · simp [hl2]
      · have hlast : A2.getD (n - 1) default = top := by
          rw [hhigh2 _ (le_refl _), hA1, getD_set_self _ _ _ (by omega)]
        have hne2 : A2 ≠ [] := by
          intro hcontr
          have hc2 := congrArg List.length hcontr
          rw [hl2] at hc2
          simp at hc2
          omega
        have hdec := eq_take_concat A2 hne2
        rw [hl2, hlast] at hdec
        refine List.Perm.trans ((List.perm_append_singleton _ _).symm) ?_
        rw [← hdec]
        refine List.Perm.trans hperm2 ?_
        rw [hA1, htop, hvalue]
        refine List.Perm.trans
          (set_move_perm (a :: as) (n - 1) 0 _ (by omega) (by omega) (by omega)) ?_
        rw [set_getD_self _ _ (by omega)]

/-- Popping from a heap leaves a heap (libstdc++ `pop_heap`). -/
theorem heapPop_isHeap (arr : List Program) (p : Program) (rest : List Program)
    (hh : IsHeap arr) (he : heapPop arr = some (p, rest)) : IsHeap rest := by
  cases arr with
  | nil => simp [heapPop] at he
  | cons a as =>
    by_cases has : as = []
    · subst has
      have h1 : heapPop [a] = some (a, []) := rfl
      rw [h1] at he
      have h2 : a = p ∧ ([] : List Program) = rest := by simpa using he
      obtain ⟨rfl, rfl⟩ := h2
      intro i hi hi0
      simp at hi
    · have hn2 : 2 ≤ (a :: as).length := by
        cases as
        · exact absurd rfl has
        · simp
      set n := (a :: as).length with hn
      set top := (a :: as).getD 0 default with htop
      set value := (a :: as).getD (n - 1) default with hvalue
      set A1 := (a :: as).set (n - 1) top with hA1
      set A2 := adjustHeap A1 0 (n - 1) value with hA2
      have hee : heapPop (a :: as) = some (top, A2.take (n - 1)) := rfl
      rw [hee] at he
      have h2 : top = p ∧ A2.take (n - 1) = rest := by simpa using he
      obtain ⟨rfl, rfl⟩ := h2
      have hA1len : A1.length = n := by rw [hA1, List.length_set]
      obtain ⟨hl2, _, _, hheap⟩ := adjustHeap_spec A1 (n - 1) value (by omega) (by omega)
      rw [hA1len] at hl2
      have hdinv : DownInvL A1 (n - 1) 0 := by
        constructor
        · intro c hc hc0 _ _
          have hkc : keyAt A1 c = keyAt (a :: as) c := by
            rw [hA1]
            unfold keyAt
            rw [getD_set_ne _ _ _ _ (by omega)]
          have hkp : keyAt A1 ((c - 1) / 2) = keyAt (a :: as) ((c - 1) / 2) := by
            rw [hA1]
            unfold keyAt
            rw [getD_set_ne _ _ _ _ (by omega)]
          rw [hkc, hkp]
          exact hh c (by omega) hc0
        · intro h0
          omega
      have hilen := hheap hdinv
      unfold IsHeap
      have hlt : (A2.take (n - 1)).length = n - 1 := by simp [hl2]
      rw [hlt]
      intro i hi hi0
      rw [keyAt_take _ _ _ (by omega), keyAt_take _ _ _ (by omega)]
      exact hilen i hi hi0

/-- In a heap the root key is minimal. -/
theorem isHeapL_root_min (arr : List Program) (len : Nat) (h : IsHeapL arr len) :
    ∀ i, i < len → keyAt arr 0 ≤ keyAt arr i := by
  intro i
  induction i using Nat.strong_induction_on with
  | _ i ih =>
    intro hi
    rcases Nat.eq_zero_or_pos i with h0 | h0
    · simp [h0]
    · exact le_trans (ih ((i - 1) / 2) (by omega) (by omega)) (h i hi h0)

/-- The popped element carries the minimal `running_time` of the heap. -/
theorem heapPop_min (arr : List Program) (p : Program) (rest : List Program)
    (hh : IsHeap arr) (he : heapPop arr = some (p, rest)) :
    ∀ x ∈ arr, p.running_time ≤ x.running_time := by
  obtain ⟨hp, _, _⟩ := heapPop_spec arr p rest he
  intro x hx
  obtain ⟨i, hi, rfl⟩ := List.mem_iff_getElem.mp hx
  have h1 := isHeapL_root_min arr arr.length hh i hi
  rw [hp]
  unfold keyAt at h1
  rw [List.getD_eq_getElem arr default hi] at h1
  exact h1

/-- Building the initial SRTF queue by repeated pushes yields a heap whose
tag multiset is the admission tag multiset. -/
theorem heapInit_spec (ps : List Program) :
    ∀ acc : List Program, IsHeap acc →
    IsHeap (ps.foldl (fun h p => heapPush h { p with state := State.READY }) acc) ∧
    ((ps.foldl (fun h p => heapPush h { p with state := State.READY }) acc).map
        Program.tag).Perm
      (acc.map Program.tag ++ ps.map Program.tag) := by
  induction ps with
  | nil =>
    intro acc hacc
    exact ⟨hacc, by simp⟩
  | cons p ps ih =>
    intro acc hacc
    obtain ⟨ih1, ih2⟩ := ih (heapPush acc { p with state := State.READY })
      (heapPush_isHeap acc _ hacc)
    refine ⟨ih1, ?_⟩
    have hp : ((heapPush acc { p with state := State.READY }).map Program.tag).Perm
        (acc.map Program.tag ++ [p.tag]) := by
      simpa using (heapPush_perm acc { p with state := State.READY }).map Program.tag
    refine List.Perm.trans ih2 ?_
    refine List.Perm.trans (hp.append_right (ps.map Program.tag)) ?_
    rw [List.append_assoc, List.singleton_append]
    simp only [List.map_cons]
    exact List.Perm.refl _

/-! ### Trace observation helpers -/

theorem timedCount_append (a b : List Event) :
    timedCount (a ++ b) = timedCount a + timedCount b := by
  unfold timedCount
  rw [List.filter_append, List.length_append]

theorem stateTrace_append (t : Nat) (a b : List Event) :
    stateTrace t (a ++ b) = stateTrace t a ++ stateTrace t b := by
  unfold stateTrace
  rw [List.filterMap_append]

theorem process_IO_events_pid (op : Operation) (pid : Nat) :
    ∀ n ∈ (process_IO_events op pid).filterMap eventPid, n = pid := by
  intro n hn
  unfold process_IO_events at hn
  split_ifs at hn <;> simp_all [eventPid]

theorem process_IO_events_timed (op : Operation) (pid : Nat) :
    timedCount (process_IO_events op pid) ≤ 1 := by
  unfold process_IO_events timedCount
  split_ifs <;> simp

theorem process_IO_events_states (op : Operation) (pid : Nat) (t : Nat) :
    stateTrace t (process_IO_events op pid) = [] := by
  unfold process_IO_events stateTrace
  split_ifs <;> simp

theorem execEvents_pid (op : Operation) (pid : Nat) :
    ∀ n ∈ (execEvents op pid).filterMap eventPid, n = pid := by
  intro n hn
  unfold execEvents at hn
  split_ifs at hn
  · simp [eventPid] at hn
    exact hn
  · exact process_IO_events_pid op pid n hn
  · simp at hn

theorem execEvents_timed (op : Operation) (pid : Nat) :
    timedCount (execEvents op pid) ≤ 1 := by
  unfold execEvents
  split_ifs
  · simp [timedCount, eventPid]
  · exact process_IO_events_timed op pid
  · simp [timedCount]

theorem execEvents_states (op : Operation) (pid : Nat) (t : Nat) :
    stateTrace t (execEvents op pid) = [] := by
  unfold execEvents
  split_ifs
  · simp [stateTrace]
  · exact process_IO_events_states op pid t
  · simp [stateTrace]

/-- Behaviour of one `process_operation` call: it consumes between one and
three queue entries (never the whole remaining queue beyond that), touches
neither `running_time`, `id`, `tag` nor `state`, stamps every
process-level event with the program's id, executes at most one timed
operation, and records no state assignments. -/
theorem process_operation_spec (p q : Program) (evs : List Event)
    (h : process_operation p = .ok (q, evs)) :
    q.operations.length < p.operations.length ∧
    p.operations.length ≤ q.operations.length + 3 ∧
    q.running_time = p.running_time ∧ q.id = p.id ∧ q.tag = p.tag ∧
    q.state = p.state ∧
    (∀ n ∈ evs.filterMap eventPid, n = p.id) ∧
    timedCount evs ≤ 1 ∧
    (∀ t, stateTrace t evs = []) := by
  cases hops : p.operations with
  | nil =>
    simp only [process_operation, Program.next, hops] at h
    exact absurd h (by simp)
  | cons op rest =>
    simp only [process_operation, Program.next, hops] at h
    by_cases hstart : op.type = 'A' ∧ op.description = "start"
    · rw [if_pos hstart] at h
      cases rest with
      | nil => simp at h
      | cons op2 rest2 =>
        simp only [Program.remaining_operations] at h
        by_cases hrem : rest2.length = 1
        · rw [if_pos hrem, if_pos hrem] at h
          rw [Except.ok.injEq, Prod.mk.injEq] at h
          obtain ⟨hq, hevs⟩ := h
          subst hq
          subst hevs
          refine ⟨by simp [hops]; omega, by simp [hops]; omega, rfl, rfl, rfl, rfl,
            ?_, ?_, ?_⟩
          · intro n hn
            simp only [List.filterMap_append] at hn
            rcases List.mem_append.mp hn with hn1 | hn2
            · rcases List.mem_append.mp hn1 with hn3 | hn4
              · simpa [eventPid] using hn3
              · exact execEvents_pid op2 p.id n hn4
            · simpa [eventPid] using hn2
          · rw [timedCount_append, timedCount_append,
              show timedCount [Event.startingProcess p.id] = 0 from rfl,
              show timedCount [Event.removingProcess p.id] = 0 from rfl]
            have := execEvents_timed op2 p.id
            omega
          · intro t
            rw [stateTrace_append, stateTrace_append, execEvents_states]
            simp [stateTrace]
        · rw [if_neg hrem, if_neg hrem] at h
          rw [Except.ok.injEq, Prod.mk.injEq] at h
          obtain ⟨hq, hevs⟩ := h
          subst hq
          subst hevs
          refine ⟨by simp [hops]; omega, by simp [hops], rfl, rfl, rfl, rfl, ?_, ?_, ?_⟩
          · intro n hn
            simp only [List.filterMap_append] at hn
            rcases List.mem_append.mp hn with hn1 | hn2
            · rcases List.mem_append.mp hn1 with hn3 | hn4
              · simpa [eventPid] using hn3
              · exact execEvents_pid op2 p.id n hn4
            · simp [eventPid] at hn2
          · rw [timedCount_append, timedCount_append,
              show timedCount [Event.startingProcess p.id] = 0 from rfl,
              show timedCount ([] : List Event) = 0 from rfl]
            have := execEvents_timed op2 p.id
            omega
          · intro t
            rw [stateTrace_append, stateTrace_append, execEvents_states]
            simp [stateTrace]
    · rw [if_neg hstart] at h
      simp only [Program.remaining_operations] at h
      by_cases hrem : rest.length = 1
      · rw [if_pos hrem, if_pos hrem] at h
        rw [Except.ok.injEq, Prod.mk.injEq] at h
        obtain ⟨hq, hevs⟩ := h
        subst hq
        subst hevs
        refine ⟨by simp [hops]; omega, by simp [hops]; omega, rfl, rfl, rfl, rfl,
          ?_, ?_, ?_⟩
        · intro n hn
          simp only [List.filterMap_append] at hn
          rcases List.mem_append.mp hn with hn1 | hn2
          · rcases List.mem_append.mp hn1 with hn3 | hn4
            · simp at hn3
            · exact execEvents_pid op p.id n hn4
          · simpa [eventPid] using hn2
        · rw [timedCount_append, timedCount_append,
            show timedCount ([] : List Event) = 0 from rfl,
            show timedCount [Event.removingProcess p.id] = 0 from rfl]
          have := execEvents_timed op p.id
          omega
        · intro t
          rw [stateTrace_append, stateTrace_append, execEvents_states]
          simp [stateTrace]
      · rw [if_neg hrem, if_neg hrem] at h
        rw [Except.ok.injEq, Prod.mk.injEq] at h
        obtain ⟨hq, hevs⟩ := h
        subst hq
        subst hevs
        refine ⟨by simp [hops], by simp [hops], rfl, rfl, rfl, rfl, ?_, ?_, ?_⟩
        · intro n hn
          simp only [List.filterMap_append] at hn
          rcases List.mem_append.mp hn with hn1 | hn2
          · rcases List.mem_append.mp hn1 with hn3 | hn4
            · simp at hn3
            · exact execEvents_pid op p.id n hn4
          · simp at hn2
        · rw [timedCount_append, timedCount_append]
          have h1 := execEvents_timed op p.id
          have h2 : timedCount ([] : List Event) = 0 := rfl
          omega
        · intro t
          rw [stateTrace_append, stateTrace_append, execEvents_states]
          simp [stateTrace]

/-- State-trace of a single event prepended to a trace. -/
theorem stateTrace_cons (t : Nat) (e : Event) (l : List Event) :
    stateTrace t (e :: l) =
      (match e with
       | Event.setState t' s => if t' = t then s :: stateTrace t l else stateTrace t l
       | _ => stateTrace t l) := by
  cases e <;> try rfl
  case setState t' s =>
    by_cases h : t' = t <;> simp [stateTrace, List.filterMap_cons, h]

theorem pairwise_of_const (l : List Nat) (c : Nat) (h : ∀ n ∈ l, n = c) :
    List.Pairwise (· ≤ ·) l := by
  induction l with
  | nil => exact List.Pairwise.nil
  | cons a as ih =>
    refine List.pairwise_cons.mpr ⟨?_, ih fun n hn => h n (by simp [hn])⟩
    intro b hb
    rw [h a (by simp), h b (by simp [hb])]

theorem flatten_none (ps : List Program) (t : Nat) (X : List State)
    (h : ∀ q ∈ ps, ¬ q.tag = t) :
    ((ps.map fun q => if q.tag = t then X else []).flatten) = [] := by
  induction ps with
  | nil => rfl
  | cons a as ih =>
    simp only [List.map_cons, List.flatten_cons, if_neg (h a (by simp))]
    exact ih fun q hq => h q (by simp [hq])

theorem flatten_single (ps : List Program) (t : Nat) (X : List State)
    (hnd : (ps.map Program.tag).Nodup) (p : Program) (hp : p ∈ ps) (hpt : p.tag = t) :
    ((ps.map fun q => if q.tag = t then X else []).flatten) = X := by
  induction ps with
  | nil => cases hp
  | cons a as ih =>
    simp only [List.map_cons, List.flatten_cons]
    simp only [List.map_cons, List.nodup_cons] at hnd
    rcases List.mem_cons.mp hp with rfl | hmem
    · rw [if_pos hpt]
      rw [flatten_none as t X ?_]
      · simp
      · intro q hq hqt
        exact hnd.1 (List.mem_map.mpr ⟨q, hq, by rw [hqt, hpt]⟩)
    · have hat : ¬ a.tag = t := by
        intro hcontr
        refine hnd.1 ?_
        rw [hcontr, ← hpt]
        exact List.mem_map.mpr ⟨p, hmem, rfl⟩
      rw [if_neg hat]
      simp only [List.nil_append]
      exact ih hnd.2 hmem

/-- The READY assignments of the admission loop, per tag. -/
theorem stateTrace_ready_map (t : Nat) (ps : List Program) :
    stateTrace t (ps.map fun p => Event.setState p.tag State.READY) =
      ((ps.map fun q => if q.tag = t then [State.READY] else []).flatten) := by
  induction ps with
  | nil => rfl
  | cons a as ih =>
    simp only [List.map_cons, List.flatten_cons, stateTrace_cons]
    by_cases h : a.tag = t
    · rw [if_pos h, if_pos h, ih]
      rfl
    · rw [if_neg h, if_neg h, ih]
      rfl

/-- The READY assignments carry no process id. -/
theorem readyEvs_no_pid (ps : List Program) :
    (ps.map fun p => Event.setState p.tag State.READY).filterMap eventPid = [] := by
  induction ps with
  | nil => rfl
  | cons a as ih =>
    simp only [List.map_cons, List.filterMap_cons, eventPid]
    exact ih

/-- Specification of the FIFO drain: it empties the program's queue
without touching the other fields, stamps all events with the program's
id, and records no state assignment. -/
theorem fifoDrain_spec (fuel : Nat) :
    ∀ (p q : Program) (evs : List Event),
    fifoDrain fuel p = .ok (q, evs) →
    q.operations = [] ∧ q.running_time = p.running_time ∧ q.id = p.id ∧
    q.tag = p.tag ∧ q.state = p.state ∧
    (∀ n ∈ evs.filterMap eventPid, n = p.id) ∧
    (∀ t, stateTrace t evs = []) := by
  induction fuel with
  | zero =>
    intro p q evs h
    unfold fifoDrain at h
    split at h
    · next hdone =>
      rw [Except.ok.injEq, Prod.mk.injEq] at h
      obtain ⟨rfl, rfl⟩ := h
      exact ⟨List.isEmpty_iff.mp hdone, rfl, rfl, rfl, rfl, by simp, fun t => rfl⟩
    · exact absurd h (by simp)
  | succ fuel ih =>
    intro p q evs h
    unfold fifoDrain at h
    split at h
    · next hdone =>
      rw [Except.ok.injEq, Prod.mk.injEq] at h
      obtain ⟨rfl, rfl⟩ := h
      exact ⟨List.isEmpty_iff.mp hdone, rfl, rfl, rfl, rfl, by simp, fun t => rfl⟩
    · next hdone =>
      cases hpo : process_operation p with
      | error e =>
        simp only [hpo] at h
        exact absurd h (by simp)
      | ok pe =>
        obtain ⟨p1, evs1⟩ := pe
        simp only [hpo] at h
        cases hdr : fifoDrain fuel p1 with
        | error e =>
          simp only [hdr] at h
          exact absurd h (by simp)
        | ok pe2 =>
          obtain ⟨p2, evs2⟩ := pe2
          simp only [hdr] at h
          rw [Except.ok.injEq, Prod.mk.injEq] at h
          obtain ⟨rfl, rfl⟩ := h
          obtain ⟨_, _, hrt, hid, htag, hst, hpid, _, htr⟩ :=
            process_operation_spec p p1 evs1 hpo
          obtain ⟨iops, irt, iid, itag, ist, ipid, itr⟩ := ih p1 p2 evs2 hdr
          refine ⟨iops, by rw [irt, hrt], by rw [iid, hid], by rw [itag, htag],
            by rw [ist, hst], ?_, ?_⟩
          · intro n hn
            rw [List.filterMap_append] at hn
            rcases List.mem_append.mp hn with hn1 | hn2
            · exact hpid n hn1
            · rw [ipid n hn2, hid]
          · intro t
            rw [stateTrace_append, htr, itr]
            rfl

/-- Specification of the FIFO dispatch loop: programs are dispatched in
admission order and drained to completion, event pids are strictly above
the entry counter and appear in non-decreasing blocks, and each program's
state assignments are Running then Exit. -/
theorem fifoPrograms_spec :
    ∀ (ps : List Program) (counter : Nat) (out : SchedOut),
    fifoPrograms counter ps = .ok out →
    out.dispatched = ps ∧
    (∀ q ∈ out.exited, q.operations = [] ∧ q.state = State.EXIT) ∧
    (∀ n ∈ out.events.filterMap eventPid, counter < n) ∧
    List.Pairwise (· ≤ ·) (out.events.filterMap eventPid) ∧
    (∀ t, stateTrace t out.events =
      ((ps.map fun q => if q.tag = t then [State.RUNNING, State.EXIT] else []).flatten)) := by
  intro ps
  induction ps with
  | nil =>
    intro counter out h
    rw [show fifoPrograms counter [] = .ok ⟨[], [], []⟩ from rfl] at h
    rw [Except.ok.injEq] at h
    subst h
    exact ⟨rfl, by simp, by simp [eventPid], by simp [eventPid], fun t => rfl⟩
  | cons program rest ih =>
    intro counter out h
    simp only [fifoPrograms] at h
    split at h
    · exact absurd h (by simp)
    · rename_i p2 evs hdr
      split at h
      · exact absurd h (by simp)
      · rename_i out' hfp
        rw [Except.ok.injEq] at h
        subst h
        obtain ⟨ia, ib, ic, id', ie⟩ := ih (counter + 1) out' hfp
        obtain ⟨dops, _, did, dtag, dst, dpid, dtr⟩ := fifoDrain_spec _ _ _ _ hdr
        have hpid1 : ∀ n ∈ List.filterMap eventPid evs, n = counter + 1 :=
          fun n hn => dpid n hn
        refine ⟨by rw [ia], ?_, ?_, ?_, ?_⟩
        · intro q hq
          rcases List.mem_cons.mp hq with rfl | hmem
          · exact ⟨dops, rfl⟩
          · exact ib q hmem
        · intro n hn
          simp only [List.filterMap_cons, eventPid, List.filterMap_append] at hn
          rcases List.mem_append.mp hn with hn1 | hn2
          · rcases List.mem_append.mp hn1 with hn3 | hn4
            · rw [hpid1 n hn3]
              omega
            · simp [eventPid] at hn4
          · have := ic n hn2
            omega
        · simp only [List.filterMap_cons, eventPid, List.filterMap_append]
          rw [List.pairwise_append]
          refine ⟨?_, ?_, ?_⟩
          · refine pairwise_of_const _ (counter + 1) ?_
            intro n hn
            rcases List.mem_append.mp hn with hn1 | hn2
            · rw [hpid1 n hn1]
            · simp [eventPid] at hn2
          · exact id'
          · intro a ha b hb
            have ha2 : a = counter + 1 := by
              rcases List.mem_append.mp ha with h1 | h1
              · rw [hpid1 a h1]
              · simp [eventPid] at h1
            have hb2 := ic b hb
            omega
        · intro t
          have hnil : stateTrace t ([] : List Event) = [] := rfl
          simp only [List.map_cons, List.flatten_cons, stateTrace_append, stateTrace_cons,
            dtr t, hnil, List.nil_append]
          by_cases htag : program.tag = t
          · simp only [if_pos htag, ie t, List.cons_append, List.nil_append]
          · simp only [if_neg htag, ie t, List.nil_append]

theorem timedCount_selecting_cons (l : List Event) :
    timedCount (Event.selecting :: l) = timedCount l := rfl

theorem timedCount_setState_cons (t : Nat) (st : State) (l : List Event) :
    timedCount (Event.setState t st :: l) = timedCount l := rfl

/-- Specification of one SRTF loop iteration: it pops the queue's root;
assigns a fresh id exactly when the popped id is still 0 (and records the
program as dispatched exactly then); runs `process_operation` once, which
consumes one to three queue entries and at most one timed operation;
finishes the program iff its queue emptied, setting EXIT and discarding
it, and otherwise sets READY and reinserts it; and its events assign
exactly Running followed by Exit-or-Ready to the popped program's tag. -/
theorem srtfIteration_spec (heap : List Program) (counter : Nat) (it : IterOut)
    (h : srtfIteration heap counter = .ok (some it)) :
    heapPop heap = some (it.popped, it.rest) ∧
    it.counter2 = (if it.popped.id = 0 then counter + 1 else counter) ∧
    it.firstDispatch = (if it.popped.id = 0 then [it.popped] else []) ∧
    it.q.id = (if it.popped.id = 0 then counter + 1 else it.popped.id) ∧
    it.q.running_time = it.popped.running_time ∧
    it.q.tag = it.popped.tag ∧
    it.q.operations.length < it.popped.operations.length ∧
    it.popped.operations.length ≤ it.q.operations.length + 3 ∧
    (it.finished = true ↔ it.q.operations = []) ∧
    it.qFinal = { it.q with
      state := if it.finished = true then State.EXIT else State.READY } ∧
    it.nextHeap = (if it.finished = true then it.rest
      else heapPush it.rest it.qFinal) ∧
    it.qFinal.running_time = it.popped.running_time ∧
    it.qFinal.tag = it.popped.tag ∧
    timedCount it.events ≤ 1 ∧
    (∀ t, stateTrace t it.events =
      if it.popped.tag = t then
        [State.RUNNING, if it.finished = true then State.EXIT else State.READY]
      else []) := by
  simp only [srtfIteration] at h
  split at h
  · exact absurd h (by simp)
  · rename_i program rest hp
    by_cases hc : program.id = 0
    · simp only [if_pos hc] at h
      split at h
      · exact absurd h (by simp)
      · rename_i q0 evs hpo
        rw [Except.ok.injEq, Option.some.injEq] at h
        subst h
        obtain ⟨l1, l2, l3, l4, l5, l6, l7, l8, l9⟩ :=
          process_operation_spec _ q0 evs hpo
        refine ⟨hp, by simp [hc], by simp [hc], by simp [hc]; exact l4, l3, l5,
          l1, l2, by simp [Program.done, List.isEmpty_iff], ?_, rfl, ?_, ?_, ?_, ?_⟩
        · by_cases hf : q0.done = true <;> simp [hf]
        · by_cases hf : q0.done = true <;> simp [hf, l3]
        · by_cases hf : q0.done = true <;> simp [hf, l5]
        · have hts : ∀ (st : State), timedCount [Event.setState program.tag st] = 0 :=
            fun st => rfl
          rw [timedCount_selecting_cons, timedCount_setState_cons, timedCount_append, hts]
          omega
        · intro t
          have hnil : stateTrace t ([] : List Event) = [] := rfl
          simp only [stateTrace_cons, stateTrace_append, l9 t, hnil, List.nil_append]
          by_cases htag : program.tag = t
          · simp [htag]
          · simp [htag]
    · simp only [if_neg hc] at h
      split at h
      · exact absurd h (by simp)
      · rename_i q0 evs hpo
        rw [Except.ok.injEq, Option.some.injEq] at h
        subst h
        obtain ⟨l1, l2, l3, l4, l5, l6, l7, l8, l9⟩ :=
          process_operation_spec _ q0 evs hpo
        refine ⟨hp, by simp [hc], by simp [hc], by simp [hc]; exact l4, l3, l5,
          l1, l2, by simp [Program.done, List.isEmpty_iff], ?_, rfl, ?_, ?_, ?_, ?_⟩
        · by_cases hf : q0.done = true <;> simp [hf]
        · by_cases hf : q0.done = true <;> simp [hf, l3]
        · by_cases hf : q0.done = true <;> simp [hf, l5]
        · have hts : ∀ (st : State), timedCount [Event.setState program.tag st] = 0 :=
            fun st => rfl
          rw [timedCount_selecting_cons, timedCount_setState_cons, timedCount_append, hts]
          omega
        · intro t
          have hnil : stateTrace t ([] : List Event) = [] := rfl
          simp only [stateTrace_cons, stateTrace_append, l9 t, hnil, List.nil_append]
          by_cases htag : program.tag = t
          · simp [htag]
          · simp [htag]

/-- Invariant of the SRTF scheduling loop over a well-formed heap: the
dispatched list is sorted by nondecreasing `running_time`, and any lower
bound on the heap's keys bounds every dispatched program's key. -/
theorem srtfLoop_sorted (fuel : Nat) : ∀ (heap : List Program) (counter : Nat)
    (out : SchedOut), IsHeap heap → srtfLoop fuel heap counter = .ok out →
    List.Pairwise (fun a b : Program => a.running_time ≤ b.running_time)
      out.dispatched ∧
    (∀ d ∈ out.dispatched, ∀ m : Int,
      (∀ x ∈ heap, m ≤ x.running_time) → m ≤ d.running_time) := by
  induction fuel with
  | zero =>
    intro heap counter out hh h
    unfold srtfLoop at h
    split at h
    · rw [Except.ok.injEq] at h
      subst h
      exact ⟨List.Pairwise.nil, by simp⟩
    · exact absurd h (by simp)
  | succ fuel ih =>
    intro heap counter out hh h
    unfold srtfLoop at h
    cases hit : srtfIteration heap counter with
    | error e => simp only [hit] at h; exact absurd h (by simp)
    | ok o =>
      cases o with
      | none =>
        simp only [hit] at h
        rw [Except.ok.injEq] at h
        subst h
        exact ⟨List.Pairwise.nil, by simp⟩
      | some it =>
        simp only [hit] at h
        cases hr : srtfLoop fuel it.nextHeap it.counter2 with
        | error e => simp only [hr] at h; exact absurd h (by simp)
        | ok out2 =>
          simp only [hr] at h
          rw [Except.ok.injEq] at h
          subst h
          obtain ⟨hp, _, hfd, _, _, _, _, _, _, _, hnh, hqrt, _, _, _⟩ :=
            srtfIteration_spec heap counter it hit
          obtain ⟨_, _, hperm⟩ := heapPop_spec heap it.popped it.rest hp
          have hmin := heapPop_min heap it.popped it.rest hh hp
          have hrest := heapPop_isHeap heap it.popped it.rest hh hp
          have hmemrest : ∀ x ∈ it.rest, x ∈ heap := fun x hx =>
            hperm.mem_iff.mp (List.mem_cons_of_mem _ hx)
          have hpopmem : it.popped ∈ heap :=
            hperm.mem_iff.mp (List.mem_cons_self _ _)
          have hnext_heap : IsHeap it.nextHeap := by
            rw [hnh]
            by_cases hf : it.finished = true
            · simp only [if_pos hf]
              exact hrest
            · simp only [if_neg hf]
              exact heapPush_isHeap _ _ hrest
          have hnext_mem : ∀ x ∈ it.nextHeap, x ∈ heap ∨ x = it.qFinal := by
            intro x hx
            rw [hnh] at hx
            by_cases hf : it.finished = true
            · rw [if_pos hf] at hx
              exact Or.inl (hmemrest x hx)
            · rw [if_neg hf] at hx
              have := (heapPush_perm it.rest it.qFinal).mem_iff.mp hx
              rcases List.mem_append.mp this with h1 | h1
              · exact Or.inl (hmemrest x h1)
              · exact Or.inr (List.mem_singleton.mp h1)
          have hnext_lb : ∀ x ∈ it.nextHeap,
              it.popped.running_time ≤ x.running_time := by
            intro x hx
            rcases hnext_mem x hx with h1 | h1
            · exact hmin x h1
            · rw [h1, hqrt]
          obtain ⟨pw2, bd2⟩ := ih it.nextHeap it.counter2 out2 hnext_heap hr
          constructor
          · show List.Pairwise _ (it.firstDispatch ++ out2.dispatched)
            rw [hfd]
            by_cases hc : it.popped.id = 0
            · rw [if_pos hc]
              rw [List.singleton_append, List.pairwise_cons]
              refine ⟨fun b hb => ?_, pw2⟩
              exact bd2 b hb it.popped.running_time hnext_lb
            · rw [if_neg hc]
              exact pw2
          · intro d hd m hm
            rcases List.mem_append.mp hd with h1 | h1
            · rw [hfd] at h1
              by_cases hc : it.popped.id = 0
              · rw [if_pos hc] at h1
                rw [List.mem_singleton.mp h1]
                exact hm it.popped hpopmem
              · rw [if_neg hc] at h1
                exact absurd h1 (List.not_mem_nil d)
            · refine bd2 d h1 m ?_
              intro x hx
              rcases hnext_mem x hx with h2 | h2
              · exact hm x h2
              · rw [h2, hqrt]
                exact hm it.popped hpopmem

/-- Per-program state-event trace of the SRTF scheduling loop: when the
queued programs carry distinct ghost tags, the state assignments recorded
for each queued tag form Running/Ready alternations ending in
Running, Exit (`srtfPattern`), and no state is ever assigned to a tag not
in the queue. -/
theorem srtfLoop_states (fuel : Nat) : ∀ (heap : List Program) (counter : Nat)
    (out : SchedOut), srtfLoop fuel heap counter = .ok out →
    (heap.map Program.tag).Nodup →
    (∀ t ∈ heap.map Program.tag, ∃ k, stateTrace t out.events = srtfPattern k) ∧
    (∀ t, t ∉ heap.map Program.tag → stateTrace t out.events = []) := by
  induction fuel with
  | zero =>
    intro heap counter out h hnd
    unfold srtfLoop at h
    split at h
    · rename_i he
      rw [Except.ok.injEq] at h
      subst h
      rw [List.isEmpty_iff] at he
      subst he
      exact ⟨by simp, fun t _ => rfl⟩
    · exact absurd h (by simp)
  | succ fuel ih =>
    intro heap counter out h hnd
    unfold srtfLoop at h
    cases hit : srtfIteration heap counter with
    | error e => simp only [hit] at h; exact absurd h (by simp)
    | ok o =>
      cases o with
      | none =>
        simp only [hit] at h
        rw [Except.ok.injEq] at h
        subst h
        have hemp : heap = [] := by
          simp only [srtfIteration] at hit
          split at hit
          · rename_i hpn
            exact (heapPop_eq_none heap).mp hpn
          · rename_i program rest hpn
            split at hit
            · exact absurd hit (by simp)
            · exact absurd hit (by simp)
        subst hemp
        exact ⟨by simp, fun t _ => rfl⟩
      | some it =>
        simp only [hit] at h
        cases hr : srtfLoop fuel it.nextHeap it.counter2 with
        | error e => simp only [hr] at h; exact absurd h (by simp)
        | ok out2 =>
          simp only [hr] at h
          rw [Except.ok.injEq] at h
          subst h
          obtain ⟨hp, _, _, _, _, _, _, _, _, _, hnh, _, hqtg, _, htr⟩ :=
            srtfIteration_spec heap counter it hit
          obtain ⟨_, _, hperm⟩ := heapPop_spec heap it.popped it.rest hp
          have htperm : (it.popped.tag :: it.rest.map Program.tag).Perm
              (heap.map Program.tag) := hperm.map Program.tag
          have hpn : (it.popped.tag :: it.rest.map Program.tag).Nodup :=
            htperm.nodup_iff.mpr hnd
          obtain ⟨hnotin, hndrest⟩ := List.nodup_cons.mp hpn
          have hpushtags : it.finished = false →
              ((heapPush it.rest it.qFinal).map Program.tag).Perm
                (it.popped.tag :: it.rest.map Program.tag) := by
            intro _
            have h1 := (heapPush_perm it.rest it.qFinal).map Program.tag
            rw [List.map_append] at h1
            have h2 : ([it.qFinal].map Program.tag) = [it.popped.tag] := by
              simp [hqtg]
            rw [h2] at h1
            exact h1.trans (List.perm_append_singleton _ _)
          have hmem_to : ∀ s, s ∈ it.nextHeap.map Program.tag →
              s = it.popped.tag ∨ s ∈ it.rest.map Program.tag := by
            intro s hs
            rw [hnh] at hs
            by_cases hf : it.finished = true
            · rw [if_pos hf] at hs
              exact Or.inr hs
            · rw [if_neg hf] at hs
              have := (hpushtags (Bool.not_eq_true _ ▸ hf)).mem_iff.mp hs
              rcases List.mem_cons.mp this with h1 | h1
              · exact Or.inl h1
              · exact Or.inr h1
          have hmem_from : ∀ s, s ∈ it.rest.map Program.tag →
              s ∈ it.nextHeap.map Program.tag := by
            intro s hs
            rw [hnh]
            by_cases hf : it.finished = true
            · rw [if_pos hf]
              exact hs
            · rw [if_neg hf]
              exact (hpushtags (Bool.not_eq_true _ ▸ hf)).mem_iff.mpr
                (List.mem_cons_of_mem _ hs)
          have hnt_nodup : (it.nextHeap.map Program.tag).Nodup := by
            rw [hnh]
            by_cases hf : it.finished = true
            · rw [if_pos hf]
              exact hndrest
            · rw [if_neg hf]
              exact (hpushtags (Bool.not_eq_true _ ▸ hf)).nodup_iff.mpr hpn
          obtain ⟨P1, P2⟩ := ih it.nextHeap it.counter2 out2 hr hnt_nodup
          have hev : ∀ t, stateTrace t (it.events ++ out2.events) =
              stateTrace t it.events ++ stateTrace t out2.events :=
            fun t => stateTrace_append t _ _
          constructor
          · intro t ht
            have ht' : t ∈ it.popped.tag :: it.rest.map Program.tag :=
              htperm.mem_iff.mpr ht
            show ∃ k, stateTrace t (it.events ++ out2.events) = srtfPattern k
            rw [hev t, htr t]
            by_cases hteq : it.popped.tag = t
            · rw [if_pos hteq]
              by_cases hf : it.finished = true
              · have ht2 : stateTrace t out2.events = [] := by
                  apply P2
                  intro hmem
                  rcases hmem_to t hmem with h1 | h1
                  · rw [hnh, if_pos hf] at hmem
                    exact hnotin (hteq ▸ hmem)
                  · exact hnotin (hteq ▸ h1)
                refine ⟨0, ?_⟩
                rw [ht2, if_pos hf, List.append_nil]
                rfl
              · have hptagmem : t ∈ it.nextHeap.map Program.tag := by
                  rw [hnh, if_neg hf]
                  exact (hpushtags (Bool.not_eq_true _ ▸ hf)).mem_iff.mpr
                    (hteq ▸ List.mem_cons_self _ _)
                obtain ⟨k, hk⟩ := P1 t hptagmem
                refine ⟨k + 1, ?_⟩
                rw [hk, if_neg hf]
                rfl
            · rw [if_neg hteq, List.nil_append]
              have htrest : t ∈ it.rest.map Program.tag := by
                rcases List.mem_cons.mp ht' with h1 | h1
                · exact absurd h1.symm hteq
                · exact h1
              exact P1 t (hmem_from t htrest)
          · intro t ht
            have hpt_mem : it.popped.tag ∈ heap.map Program.tag :=
              htperm.mem_iff.mp (List.mem_cons_self _ _)
            have hteq : ¬ it.popped.tag = t := fun he => ht (he ▸ hpt_mem)
            have htrest : t ∉ it.rest.map Program.tag := fun hm =>
              ht (htperm.mem_iff.mp (List.mem_cons_of_mem _ hm))
            have htnext : t ∉ it.nextHeap.map Program.tag := by
              intro hm
              rcases hmem_to t hm with h1 | h1
              · exact hteq h1.symm
              · exact htrest h1
            show stateTrace t (it.events ++ out2.events) = []
            rw [hev t, htr t, if_neg hteq, P2 t htnext, List.append_nil]

theorem stateTrace_preparing_cons (t : Nat) (l : List Event) :
    stateTrace t (Event.preparing :: l) = stateTrace t l := rfl

/-- C6: Under the FIFO discipline every admitted batch is dispatched in
admission order — the dispatched list IS the admitted list, independent of
any ranking key — each program leaves the run fully drained in state EXIT,
and the process ids attached to the operation events are nondecreasing, so
each program's operations complete before the next program's begin. -/
theorem C6_theorem (ps : List Program) (out : SchedOut)
    (h : fifoRun ps = .ok out) :
    out.dispatched = ps ∧
    (∀ q ∈ out.exited, q.operations = [] ∧ q.state = State.EXIT) ∧
    List.Pairwise (· ≤ ·) (out.events.filterMap eventPid) := by
  simp only [fifoRun] at h
  split at h
  · exact absurd h (by simp)
  · rename_i out0 hfp
    rw [Except.ok.injEq] at h
    subst h
    obtain ⟨hd, hex, _, hpw, _⟩ := fifoPrograms_spec ps 0 out0 hfp
    refine ⟨hd, hex, ?_⟩
    show List.Pairwise _ ((Event.preparing ::
      ((ps.map fun p => Event.setState p.tag State.READY) ++
        out0.events)).filterMap eventPid)
    rw [List.filterMap_cons_none rfl, List.filterMap_append,
      readyEvs_no_pid, List.nil_append]
    exact hpw

/-- C3 (amended): Under the SRTF-N discipline the dispatch order is
ascending by `running_time` and fully determined by the input batch; but
ties are broken by the binary-heap pop order, not by admission order. -/
theorem C3_amended (ps : List Program) (out : SchedOut)
    (h : srtfRun ps = .ok out) :
    List.Pairwise (fun a b : Program => a.running_time ≤ b.running_time)
      out.dispatched ∧
    (∀ out2, srtfRun ps = .ok out2 → out2 = out) := by
  have hdet : ∀ out2, srtfRun ps = .ok out2 → out2 = out := by
    intro out2 h2
    rw [h] at h2
    exact (Except.ok.inj h2).symm
  refine ⟨?_, hdet⟩
  simp only [srtfRun] at h
  split at h
  · exact absurd h (by simp)
  · rename_i out0 hl
    rw [Except.ok.injEq] at h
    subst h
    obtain ⟨hh, _⟩ := heapInit_spec ps [] (by decide)
    obtain ⟨hpw, _⟩ := srtfLoop_sorted (sumOps ps + 1) _ 0 out0 hh hl
    exact hpw

/-- C4 (amended): For distinct ghost tags, under FIFO every program's
recorded state assignments are exactly Ready, Running, Exit in order;
under SRTF-N they are Ready followed by a Running/Ready alternation that
ends Running, Exit — the program regresses from Running back to Ready on
every preemptive revisit, so strict monotonicity holds only under FIFO. -/
theorem C4_amended (ps : List Program) (hnd : (ps.map Program.tag).Nodup) :
    (∀ out : SchedOut, fifoRun ps = .ok out → ∀ p ∈ ps,
      stateTrace p.tag out.events =
        [State.READY, State.RUNNING, State.EXIT]) ∧
    (∀ out : SchedOut, srtfRun ps = .ok out → ∀ p ∈ ps,
      ∃ k, stateTrace p.tag out.events = State.READY :: srtfPattern k) := by
  constructor
  · intro out h p hp
    simp only [fifoRun] at h
    split at h
    · exact absurd h (by simp)
    · rename_i out0 hfp
      rw [Except.ok.injEq] at h
      subst h
      obtain ⟨_, _, _, _, htr⟩ := fifoPrograms_spec ps 0 out0 hfp
      show stateTrace p.tag (Event.preparing ::
        ((ps.map fun p => Event.setState p.tag State.READY) ++
          out0.events)) = _
      rw [stateTrace_preparing_cons, stateTrace_append, stateTrace_ready_map,
        htr p.tag, flatten_single ps p.tag [State.READY] hnd p hp rfl,
        flatten_single ps p.tag [State.RUNNING, State.EXIT] hnd p hp rfl]
      rfl
  · intro out h p hp
    simp only [srtfRun] at h
    split at h
    · exact absurd h (by simp)
    · rename_i out0 hl
      rw [Except.ok.injEq] at h
      subst h
      obtain ⟨hh, htagperm⟩ := heapInit_spec ps [] (by decide)
      have hndh := htagperm.nodup_iff.mpr hnd
      obtain ⟨P1, _⟩ := srtfLoop_states (sumOps ps + 1) _ 0 out0 hl hndh
      have hmem := htagperm.mem_iff.mpr (List.mem_map_of_mem Program.tag hp)
      obtain ⟨k, hk⟩ := P1 p.tag hmem
      refine ⟨k, ?_⟩
      show stateTrace p.tag (Event.preparing ::
        ((ps.map fun p => Event.setState p.tag State.READY) ++
          out0.events)) = _
      rw [stateTrace_preparing_cons, stateTrace_append, stateTrace_ready_map,
        flatten_single ps p.tag [State.READY] hnd p hp rfl, hk]
      rfl

/-- C5 (amended): Each SRTF loop iteration over a well-formed heap pops a
program of minimal `running_time`, assigns a fresh id (and records the
dispatch) exactly when the program has never been popped before, executes
AT MOST one timed operation while consuming one to three queued
operations, finishes the program iff its queue emptied — setting EXIT and
discarding it — and otherwise sets it READY and reinserts it. -/
theorem C5_amended (heap : List Program) (counter : Nat) (it : IterOut)
    (hh : IsHeap heap) (h : srtfIteration heap counter = .ok (some it)) :
    (∀ x ∈ heap, it.popped.running_time ≤ x.running_time) ∧
    it.counter2 = (if it.popped.id = 0 then counter + 1 else counter) ∧
    it.firstDispatch = (if it.popped.id = 0 then [it.popped] else []) ∧
    it.q.id = (if it.popped.id = 0 then counter + 1 else it.popped.id) ∧
    timedCount it.events ≤ 1 ∧
    it.q.operations.length < it.popped.operations.length ∧
    it.popped.operations.length ≤ it.q.operations.length + 3 ∧
    (it.finished = true ↔ it.q.operations = []) ∧
    it.qFinal.state = (if it.finished = true then State.EXIT else State.READY) ∧
    it.nextHeap = (if it.finished = true then it.rest
      else heapPush it.rest it.qFinal) := by
  obtain ⟨hp, hc2, hfd, hqid, _, _, hlt, hle, hfin, hqf, hnh, _, _, htc, _⟩ :=
    srtfIteration_spec heap counter it h
  refine ⟨heapPop_min heap it.popped it.rest hh hp, hc2, hfd, hqid, htc,
    hlt, hle, hfin, ?_, hnh⟩
  rw [hqf]

/-- C6 witness: two sample programs with DECREASING running times are
still dispatched in admission order under FIFO. -/
theorem C6_witness :
    fifoSampleOut.dispatched = [sampleP0, sampleP1] ∧
    (∀ q ∈ fifoSampleOut.exited,
      q.operations = [] ∧ q.state = State.EXIT) ∧
    List.Pairwise (· ≤ ·) (fifoSampleOut.events.filterMap eventPid) :=
  C6_theorem [sampleP0, sampleP1] fifoSampleOut rfl

/-- C3 witness: the SRTF run of the two sample programs dispatches
ascending by running time, deterministically. -/
theorem C3_amended_witness :
    List.Pairwise (fun a b : Program => a.running_time ≤ b.running_time)
      srtfSampleOut.dispatched ∧
    (∀ out2, srtfRun [sampleP0, sampleP1] = .ok out2 →
      out2 = srtfSampleOut) :=
  C3_amended [sampleP0, sampleP1] srtfSampleOut rfl

/-- C4 witness: the two sample programs carry distinct tags, and both
scheduling disciplines give each the stated per-tag state trace. -/
theorem C4_amended_witness :
    (([sampleP0, sampleP1].map Program.tag).Nodup) ∧
    ((∀ out : SchedOut, fifoRun [sampleP0, sampleP1] = .ok out →
        ∀ p ∈ [sampleP0, sampleP1],
        stateTrace p.tag out.events =
          [State.READY, State.RUNNING, State.EXIT]) ∧
     (∀ out : SchedOut, srtfRun [sampleP0, sampleP1] = .ok out →
        ∀ p ∈ [sampleP0, sampleP1],
        ∃ k, stateTrace p.tag out.events =
          State.READY :: srtfPattern k)) :=
  ⟨by decide, C4_amended [sampleP0, sampleP1] (by decide)⟩

/-- C5 witness: the singleton heap `[sampleP0]` is a heap, and one SRTF
iteration on it behaves as specified (finishing the program at once). -/
theorem C5_amended_witness :
    IsHeap [sampleP0] ∧
    ((∀ x ∈ [sampleP0],
        srtfSampleIter.popped.running_time ≤ x.running_time) ∧
     srtfSampleIter.counter2 =
       (if srtfSampleIter.popped.id = 0 then 0 + 1 else 0) ∧
     srtfSampleIter.firstDispatch =
       (if srtfSampleIter.popped.id = 0 then [srtfSampleIter.popped] else []) ∧
     srtfSampleIter.q.id =
       (if srtfSampleIter.popped.id = 0 then 0 + 1
        else srtfSampleIter.popped.id) ∧
     timedCount srtfSampleIter.events ≤ 1 ∧
     srtfSampleIter.q.operations.length <
       srtfSampleIter.popped.operations.length ∧
     srtfSampleIter.popped.operations.length ≤
       srtfSampleIter.q.operations.length + 3 ∧
     (srtfSampleIter.finished = true ↔ srtfSampleIter.q.operations = []) ∧
     srtfSampleIter.qFinal.state =
       (if srtfSampleIter.finished = true then State.EXIT else State.READY) ∧
     srtfSampleIter.nextHeap =
       (if srtfSampleIter.finished = true then srtfSampleIter.rest
        else heapPush srtfSampleIter.rest srtfSampleIter.qFinal)) :=
  ⟨by decide, C5_amended [sampleP0] 0 srtfSampleIter (by decide) rfl⟩

theorem soct_A_cycleTime (cfg : Config) (op0 op : Operation)
    (h : set_operation_cycle_time cfg op0 = .ok op) (hA : op.type = 'A') :
    op.cycleTime = 0 := by
  simp only [set_operation_cycle_time] at h
  split_ifs at h with h1 h2 h3 h4 h5 h6 h7
  · rw [Except.ok.injEq] at h
    subst h
    exact absurd (h1.symm.trans (hA : op0.type = 'A')) (by decide)
  · rw [Except.ok.injEq] at h
    subst h
    rcases h2 with h2 | h2 <;>
      exact absurd (h2.symm.trans (hA : op0.type = 'A')) (by decide)
  · rw [Except.ok.injEq] at h
    subst h
    rcases h2 with h2 | h2 <;>
      exact absurd (h2.symm.trans (hA : op0.type = 'A')) (by decide)
  · rw [Except.ok.injEq] at h
    subst h
    rcases h2 with h2 | h2 <;>
      exact absurd (h2.symm.trans (hA : op0.type = 'A')) (by decide)
  · rw [Except.ok.injEq] at h
    subst h
    rcases h2 with h2 | h2 <;>
      exact absurd (h2.symm.trans (hA : op0.type = 'A')) (by decide)
  · rw [Except.ok.injEq] at h
    subst h
    rcases h2 with h2 | h2 <;>
      exact absurd (h2.symm.trans hA) (by decide)
  · rw [Except.ok.injEq] at h
    subst h
    rfl

theorem sum_filter_A : ∀ (ops : List Operation),
    (∀ op ∈ ops, op.type = 'A' → op.cycleTime = 0) →
    ((ops.filter fun op => op.type != 'A').map Operation.duration).sum =
      (ops.map Operation.duration).sum := by
  intro ops
  induction ops with
  | nil => intro _; rfl
  | cons a as ih =>
    intro h
    by_cases ha : a.type = 'A'
    · have h0 : a.cycleTime = 0 := h a (List.mem_cons_self _ _) ha
      have hb : (a.type != 'A') = false := by simp [ha]
      rw [List.filter_cons, if_neg (by simp [hb]), List.map_cons, List.sum_cons,
        ih fun op hop hA => h op (List.mem_cons_of_mem _ hop) hA]
      simp [Operation.duration, h0]
    · have hb : (a.type != 'A') = true := by simp [ha]
      rw [List.filter_cons, if_pos hb, List.map_cons, List.sum_cons,
        List.map_cons, List.sum_cons,
        ih fun op hop hA => h op (List.mem_cons_of_mem _ hop) hA]

theorem add_operation_inv (cfg : Config) (acc : Program) (op0 op : Operation)
    (hsoct : set_operation_cycle_time cfg op0 = .ok op)
    (hrt : acc.running_time = (acc.operations.map Operation.duration).sum)
    (hops : ∀ o ∈ acc.operations, o.type = 'A' → o.cycleTime = 0) :
    (acc.add_operation op).running_time =
      ((acc.add_operation op).operations.map Operation.duration).sum ∧
    (∀ o ∈ (acc.add_operation op).operations,
      o.type = 'A' → o.cycleTime = 0) := by
  constructor
  · show acc.running_time + op.duration =
      ((acc.operations ++ [op]).map Operation.duration).sum
    rw [List.map_append, List.sum_append, hrt]
    simp
  · intro o ho hoA
    rcases List.mem_append.mp ho with h1 | h1
    · exact hops o h1 hoA
    · rw [List.mem_singleton.mp h1] at hoA ⊢
      exact soct_A_cycleTime cfg op0 op hsoct hoA

/-- Invariant of the program-building loop: `running_time` stays the sum
of the queued operations' durations, and every queued `A` operation has
cycle time 0 (so contributes nothing to the sum). -/
theorem load_program_rt (cfg : Config) (fuel : Nat) :
    ∀ (cur : Operation) (acc : Program) (s : List Char) (p : Program)
      (op1 : Operation) (s1 : List Char),
    load_program cfg fuel cur acc s = .ok (p, op1, s1) →
    acc.running_time = (acc.operations.map Operation.duration).sum →
    (∀ o ∈ acc.operations, o.type = 'A' → o.cycleTime = 0) →
    p.running_time = (p.operations.map Operation.duration).sum ∧
    (∀ o ∈ p.operations, o.type = 'A' → o.cycleTime = 0) := by
  induction fuel with
  | zero =>
    intro cur acc s p op1 s1 h _ _
    exact absurd h (by simp [load_program])
  | succ fuel ih =>
    intro cur acc s p op1 s1 h hrt hops
    simp only [load_program] at h
    split at h
    · exact absurd h (by simp)
    · rename_i op0 hpt
      split at h
      · exact absurd h (by simp)
      · rename_i op hsoct
        obtain ⟨hrt1, hops1⟩ := add_operation_inv cfg acc op0 op hsoct hrt hops
        split at h
        · rw [Except.ok.injEq, Prod.mk.injEq, Prod.mk.injEq] at h
          obtain ⟨hpe, _, _⟩ := h
          rw [← hpe]
          exact ⟨hrt1, hops1⟩
        · exact ih op (acc.add_operation op) _ p op1 s1 h hrt1 hops1

/-- The invariant extends to every program accumulated by the outer
loading loop. -/
theorem load_programs_rt (cfg : Config) (fuel : Nat) :
    ∀ (cur : Operation) (ps0 : List Program) (s : List Char)
      (ps : List Program) (op1 : Operation) (s1 : List Char),
    load_programs cfg fuel cur ps0 s = .ok (ps, op1, s1) →
    (∀ p ∈ ps0,
      p.running_time = (p.operations.map Operation.duration).sum ∧
      ∀ o ∈ p.operations, o.type = 'A' → o.cycleTime = 0) →
    ∀ p ∈ ps,
      p.running_time = (p.operations.map Operation.duration).sum ∧
      ∀ o ∈ p.operations, o.type = 'A' → o.cycleTime = 0 := by
  induction fuel with
  | zero =>
    intro cur ps0 s ps op1 s1 h _
    exact absurd h (by simp [load_programs])
  | succ fuel ih =>
    intro cur ps0 s ps op1 s1 h hps0
    simp only [load_programs] at h
    split at h
    · rw [Except.ok.injEq, Prod.mk.injEq, Prod.mk.injEq] at h
      obtain ⟨hpe, _, _⟩ := h
      rw [← hpe]
      exact hps0
    · split at h
      · exact absurd h (by simp)
      · rename_i q cur1 s2 hlp
        have hq := load_program_rt cfg (s.length + 1) cur
          ⟨[], State.START, 0, 0, ps0.length⟩ s q cur1 s2 hlp rfl
          (fun o ho => absurd ho (List.not_mem_nil o))
        refine ih cur1 (ps0 ++ [q]) s2 ps op1 s1 h ?_
        intro p hp
        rcases List.mem_append.mp hp with h1 | h1
        · exact hps0 p h1
        · rw [List.mem_singleton.mp h1]
          exact hq

/-- C8: Every program built by `load_meta_data` has `running_time` equal
to the sum of the durations of its non-`A` operations (equivalently, of
all its operations — the bracketing `A` operations are loaded with cycle
time 0, so their durations vanish), the value being accumulated once by
`add_operation` during loading; and the executor `process_operation`
never changes a program's `running_time` afterwards. -/
theorem C8_theorem (cfg : Config) (stream : List Char) (initOp : Operation)
    (ps : List Program) (h : load_meta_data cfg stream initOp = .ok ps) :
    (∀ p ∈ ps,
      p.running_time =
        ((p.operations.filter fun op => op.type != 'A').map
          Operation.duration).sum ∧
      p.running_time = (p.operations.map Operation.duration).sum) ∧
    (∀ (q q2 : Program) (evs : List Event),
      process_operation q = .ok (q2, evs) →
      q2.running_time = q.running_time) := by
  constructor
  · intro p hp
    simp only [load_meta_data] at h
    split at h
    · split at h
      · exact absurd h (by simp)
      · rename_i ps0 cur2 s2 hlps
        split at h
        · split at h
          · rw [Except.ok.injEq] at h
            subst h
            obtain ⟨hrt, hA⟩ := load_programs_rt cfg _ initOp [] _ ps0 cur2 _
              hlps (fun q hq => absurd hq (List.not_mem_nil q)) p hp
            refine ⟨?_, hrt⟩
            rw [sum_filter_A p.operations hA]
            exact hrt
          · exact absurd h (by simp)
        · exact absurd h (by simp)
    · exact absurd h (by simp)
  · intro q q2 evs hq
    exact (process_operation_spec q q2 evs hq).2.2.1

/-- C8, witness: a concrete meta-data stream containing
`A(start)0; P(run)2; A(end)0` loads one program whose running time 20 is
the `P` operation's duration alone. -/
theorem C8_witness :
    (∀ p ∈ [(⟨[⟨'A', "start", 0, 0⟩, ⟨'P', "run", 2, 10⟩, ⟨'A', "end", 0, 0⟩],
        State.START, 20, 0, 0⟩ : Program)],
      p.running_time =
        ((p.operations.filter fun op => op.type != 'A').map
          Operation.duration).sum ∧
      p.running_time = (p.operations.map Operation.duration).sum) ∧
    (∀ (q q2 : Program) (evs : List Event),
      process_operation q = .ok (q2, evs) →
      q2.running_time = q.running_time) :=
  C8_theorem ⟨10, 2, 3, 4, 5⟩
    (("Start Program Meta-Data Code:\nS(start)0; A(start)0; P(run)2; " ++
      "A(end)0;\nS(end)0. End Program Meta-Data Code.").toList)
    ⟨'?', "", 0, 0⟩
    [⟨[⟨'A', "start", 0, 0⟩, ⟨'P', "run", 2, 10⟩, ⟨'A', "end", 0, 0⟩],
      State.START, 20, 0, 0⟩] rfl

end OSSim
